import Mathlib

/-!
Verification of the task-tree consistency engine of the `act` to-do application.

The definitions below are a shallow embedding of `src/services/task-service.ts`
(the latest revision of the task service), of the persisted schema from
`src-tauri/migrations/003_rename_date_created_add_due_date.sql`, and of the
SQL statements the service issues.  The persistent store is modelled as a
`List DatabaseTask` (the rows of the `tasks` table); every SQL statement is
translated into the corresponding pure list transformation:

* `UPDATE ... WHERE id = x` becomes a `List.map` that rewrites the rows whose
  id matches;
* `SELECT ... WHERE parent_id = $1 ORDER BY task_order ASC` becomes a filter
  followed by an insertion sort (SQLite ORDER BY);
* `DELETE` together with the schema constraint
  `FOREIGN KEY (parent_id) REFERENCES tasks (id) ON DELETE CASCADE` becomes
  removal of every row whose chain of parents reaches a requested id;
* string comparisons (`due_date >= $1` and friends) are SQLite BINARY
  collation, i.e. bytewise comparison of the UTF-8 encodings, modelled as the
  lexicographic order on `String.data` (UTF-8 preserves codepoint order).

The mutually recursive parent walks of the service
(`handleParentChildCompletion`, `updateParentCompletionStatus`,
`getAllSubtasksRecursive`) terminate only on acyclic trees (spec invariant
I1), so they are embedded with an explicit fuel argument; the theorems show
that any fuel dominating a rank function for the parent relation computes the
limit, which is the formal counterpart of the termination claim of the spec.
Timestamps produced while an operation runs (the service calls
`new Date().toISOString()`) are passed in as an explicit `now : String`.
-/

/-- Row of the `tasks` table, after migration 003: interface `DatabaseTask`
in `src/services/database.ts`.  `completed` is stored as 0/1 in SQLite and
read back through `Boolean(...)`, so it is modelled as `Bool`. -/
structure DatabaseTask where
  id : String
  name : String := ""
  parent_id : Option String := none
  completed : Bool := false
  completed_at : Option String := none
  created_at : String := ""
  due_date : String := ""
  task_order : Int := 0
deriving DecidableEq, Repr

namespace TaskService

/-- Lookup of a row by primary key: `SELECT ... FROM tasks WHERE id = $1`. -/
def findTask (db : List DatabaseTask) (i : String) : Option DatabaseTask :=
  db.find? (fun t => t.id == i)

/-- The rows whose `parent_id` equals the given id (the unsorted sibling
set): `SELECT ... FROM tasks WHERE parent_id = $1`. -/
def childRows (db : List DatabaseTask) (pid : String) : List DatabaseTask :=
  db.filter (fun t => t.parent_id == some pid)

/-- Comparison used by `ORDER BY task_order ASC`. -/
def orderLe (a b : DatabaseTask) : Prop :=
  a.task_order ≤ b.task_order

instance : DecidableRel orderLe := fun a b => by
  unfold orderLe; infer_instance

instance : IsTotal DatabaseTask orderLe :=
  ⟨fun a b => Int.le_total a.task_order b.task_order⟩

instance : IsTrans DatabaseTask orderLe :=
  ⟨fun _ _ _ hab hbc => le_trans hab hbc⟩

/-- `TaskService.getSubtasks`: rows of one parent group, ordered by
`task_order ASC` (the computed `completed_subtasks` display column is
dropped; no claim mentions it). -/
def getSubtasks (db : List DatabaseTask) (parentId : String) : List DatabaseTask :=
  (childRows db parentId).insertionSort orderLe

/-- Row-level effect of `UPDATE tasks SET completed = $c, completed_at = $a
WHERE id = $i`. -/
def flagWrite (i : String) (c : Bool) (a : Option String)
    (t : DatabaseTask) : DatabaseTask :=
  if t.id == i then { t with completed := c, completed_at := a } else t

/-- `UPDATE tasks SET completed = $c, completed_at = $a WHERE id = $i`. -/
def setCompleted (db : List DatabaseTask) (i : String) (c : Bool)
    (a : Option String) : List DatabaseTask :=
  db.map (flagWrite i c a)

/-- `TaskService.handleParentChildCompletion`: after the task `taskId`
changed, recompute the completion of its parent and recurse upward.  The
recursion of the source walks the parent chain; here it is driven by `fuel`
(adequate fuel computes the limit, see the termination theorem). -/
def handleParentChildCompletion (now : String) :
    Nat → List DatabaseTask → String → List DatabaseTask
  | 0, db, _ => db
  | fuel + 1, db, taskId =>
    match findTask db taskId with
    | none => db
    | some task =>
      match task.parent_id with
      | none => db
      | some pid =>
        if task.completed then
          -- task was completed: auto-complete the parent iff all siblings completed
          if (getSubtasks db pid).all (·.completed) then
            handleParentChildCompletion now fuel (setCompleted db pid true (some now)) pid
          else db
        else
          -- task was uncompleted: auto-uncomplete the parent if it was completed
          match findTask db pid with
          | none => db
          | some parent =>
            if parent.completed then
              if parent.parent_id.isSome then
                handleParentChildCompletion now fuel (setCompleted db pid false none) pid
              else setCompleted db pid false none
            else db

/-- `TaskService.updateParentCompletionStatus`: recompute the completion flag
of `parentId` from its children and recurse to the grandparent when the flag
changed.  A parent with zero children is left alone. -/
def updateParentCompletionStatus (now : String) :
    Nat → List DatabaseTask → String → List DatabaseTask
  | 0, db, _ => db
  | fuel + 1, db, parentId =>
    if (getSubtasks db parentId).isEmpty then db
    else
      match findTask db parentId with
      | none => db
      | some parent =>
        if (getSubtasks db parentId).all (·.completed) && !parent.completed then
          match parent.parent_id with
          | some pp =>
            updateParentCompletionStatus now fuel
              (setCompleted db parentId true (some now)) pp
          | none => setCompleted db parentId true (some now)
        else if !((getSubtasks db parentId).all (·.completed)) && parent.completed then
          match parent.parent_id with
          | some pp =>
            updateParentCompletionStatus now fuel
              (setCompleted db parentId false none) pp
          | none => setCompleted db parentId false none
        else db

/-- `SELECT COALESCE(MAX(task_order), -1) FROM tasks WHERE parent_id IS $1`. -/
def maxOrderInGroup (db : List DatabaseTask) (pid : Option String) : Int :=
  ((db.filter (fun t => t.parent_id == pid)).map (·.task_order)).foldl max (-1)

/-- `TaskService.createTask`: insert a fresh row with the next order in the
target group, then run completion propagation from the new task when it has a
parent.  The generated uuid and the current timestamp are parameters.
Returns the created row together with the new table state. -/
def createTask (id now : String) (fuel : Nat) (db : List DatabaseTask)
    (name : String) (parentId : Option String) (date : Option String) :
    DatabaseTask × List DatabaseTask :=
  let taskDate := match date with
    | some d => d
    | none => now
  let task : DatabaseTask :=
    { id := id, name := name, parent_id := parentId, completed := false,
      completed_at := none, created_at := now, due_date := taskDate,
      task_order := maxOrderInGroup db parentId + 1 }
  let db1 := db ++ [task]
  match parentId with
  | some _ => (task, handleParentChildCompletion now fuel db1 id)
  | none => (task, db1)

/-- `TaskService.updateTask` (rename): `UPDATE tasks SET name = $1 WHERE id = $2`. -/
def updateTask (db : List DatabaseTask) (i newName : String) : List DatabaseTask :=
  db.map (fun t => if t.id == i then { t with name := newName } else t)

/-- Row-level effect of the toggle statement `UPDATE tasks SET completed =
NOT completed, completed_at = CASE WHEN completed THEN NULL ELSE $1 END WHERE
id = $2` (SQLite UPDATE reads the old column values on the right). -/
def toggleWrite (now i : String) (t : DatabaseTask) : DatabaseTask :=
  if t.id == i then
    { t with completed := !t.completed,
             completed_at := if t.completed then none else some now }
  else t

/-- `TaskService.toggleTask`: flip `completed`, set or clear `completed_at`,
then propagate. -/
def toggleTask (now : String) (fuel : Nat) (db : List DatabaseTask)
    (i : String) : List DatabaseTask :=
  handleParentChildCompletion now fuel (db.map (toggleWrite now i)) i

/-- First-occurrence deduplication: iteration order of a JS `Set` built by
insertion. -/
def dedupFirst (l : List String) : List String :=
  l.foldl (fun acc x => if acc.contains x then acc else acc ++ [x]) []

/-- Does the parent chain starting at id `i` reach one of `ids` within `n`
steps?  This models which rows the statement
`DELETE FROM tasks WHERE id IN ids OR parent_id IN ids` removes once the
schema clause `FOREIGN KEY (parent_id) REFERENCES tasks (id) ON DELETE
CASCADE` (migration 003) has propagated it: a row is gone iff itself or some
ancestor was requested. -/
def hitsDeleted (db : List DatabaseTask) (ids : List String) :
    Nat → String → Bool
  | 0, i => ids.contains i
  | n + 1, i =>
    ids.contains i ||
      match findTask db i with
      | some t =>
        match t.parent_id with
        | some p => hitsDeleted db ids n p
        | none => false
      | none => false

/-- Loop body of `TaskService.deleteTasks` over the affected former parents:
when the surviving siblings are nonempty and all completed, auto-complete the
parent and propagate upward; otherwise do nothing. -/
def deleteRestoreParent (now : String) (fuel : Nat)
    (acc : List DatabaseTask) (parentId : String) : List DatabaseTask :=
  if (getSubtasks acc parentId).isEmpty then acc
  else if (getSubtasks acc parentId).all (·.completed) then
    handleParentChildCompletion now fuel
      (setCompleted acc parentId true (some now)) parentId
  else acc

/-- `TaskService.deleteTasks`: remove the requested rows (the subtree of each
goes with it, see `hitsDeleted`), then for every distinct former parent run
`deleteRestoreParent`.  Matches the source: the not-all-completed case does
nothing, and a parent left childless is skipped. -/
def deleteTasks (now : String) (fuel : Nat) (db : List DatabaseTask)
    (taskIds : List String) : List DatabaseTask :=
  if taskIds.isEmpty then db
  else
    if (db.filter (fun t => taskIds.contains t.id)).isEmpty then db
    else
      (dedupFirst ((db.filter (fun t => taskIds.contains t.id)).filterMap (·.parent_id))).foldl
        (deleteRestoreParent now fuel)
        (db.filter (fun t => !(hitsDeleted db taskIds fuel t.id)))

/-- `TaskService.reorderTasks`:
`UPDATE tasks SET task_order = CASE WHEN id = ids[0] THEN 0 WHEN id = ids[1]
THEN 1 ... END WHERE id IN ids AND parent_id IS $parentId`.  A CASE picks the
first matching WHEN clause, hence `List.indexOf`. -/
def reorderTasks (db : List DatabaseTask) (taskIds : List String)
    (parentId : Option String) : List DatabaseTask :=
  if taskIds.isEmpty then db
  else
    db.map (fun t =>
      if taskIds.contains t.id && t.parent_id == parentId then
        { t with task_order := (taskIds.indexOf t.id : Int) }
      else t)

/-- Row-level effect of the move UPDATE on the rows whose id is in the CASE
clause: the new parent and the appended order slot. -/
def moveWrite (newParentId : Option String) (maxOrder : Int)
    (taskIds : List String) (t : DatabaseTask) : DatabaseTask :=
  if taskIds.contains t.id then
    { t with parent_id := newParentId,
             task_order := maxOrder + 1 + (taskIds.indexOf t.id : Int) }
  else t

/-- `TaskService.moveTasksToParent`.  The source builds the CASE clauses from
the rows it found (`tasksToMove`) but binds the requested ids
(`...idsArray`): the UPDATE statement carries
`1 + tasksToMove.length + idsArray.length` placeholders while
`1 + 2 * idsArray.length` values are bound.  When some requested id is
missing (or repeated) the counts disagree and the underlying store rejects
the statement, modelled as `Except.error`; when they agree the CASE clause
for position `k` tests `id = idsArray[k]`, so each moved row gets
`max_order + 1 + (index of its id in idsArray)`. -/
def moveTasksToParent (now : String) (fuel : Nat) (db : List DatabaseTask)
    (taskIds : List String) (newParentId : Option String) :
    Except String (List DatabaseTask) :=
  if taskIds.isEmpty then .ok db
  else
    if (db.filter (fun t => taskIds.contains t.id)).isEmpty then .ok db
    else if (db.filter (fun t => taskIds.contains t.id)).length ≠ taskIds.length then
      .error "wrong number of parameters"
    else
      match newParentId with
      | some np =>
        .ok (updateParentCompletionStatus now fuel
          ((dedupFirst ((db.filter (fun t => taskIds.contains t.id)).filterMap
              (·.parent_id))).foldl
            (updateParentCompletionStatus now fuel)
            (db.map (moveWrite newParentId (maxOrderInGroup db newParentId) taskIds)))
          np)
      | none =>
        .ok ((dedupFirst ((db.filter (fun t => taskIds.contains t.id)).filterMap
              (·.parent_id))).foldl
            (updateParentCompletionStatus now fuel)
            (db.map (moveWrite newParentId (maxOrderInGroup db newParentId) taskIds)))

/-- `TaskService.getAllSubtasksRecursive`: direct children first (one SELECT
per node, no ORDER BY), then recursively the children of each. -/
def getAllSubtasksRecursive (db : List DatabaseTask) :
    Nat → String → List DatabaseTask
  | 0, _ => []
  | fuel + 1, taskId =>
    let direct := childRows db taskId
    direct ++ direct.flatMap (fun s => getAllSubtasksRecursive db fuel s.id)

/-- Row-level effect of the first UPDATE of `updateTasksDates`:
`UPDATE tasks SET due_date = $newDate WHERE id IN taskIds`. -/
def dateWrite (taskIds : List String) (newDate : String)
    (t : DatabaseTask) : DatabaseTask :=
  if taskIds.contains t.id then { t with due_date := newDate } else t

/-- Row-level effect of the second UPDATE of `updateTasksDates`:
`UPDATE tasks SET due_date = $newDate WHERE id IN subIds AND completed = 0`. -/
def dateCascadeWrite (subIds : List String) (newDate : String)
    (t : DatabaseTask) : DatabaseTask :=
  if subIds.contains t.id && !t.completed then { t with due_date := newDate }
  else t

/-- `TaskService.updateTasksDates`: set `due_date` on the listed rows, then
collect every descendant of each listed id (completed ones included) and set
`due_date` on those that are not completed. -/
def updateTasksDates (fuel : Nat) (db : List DatabaseTask)
    (taskIds : List String) (newDate : String) : List DatabaseTask :=
  if taskIds.isEmpty then db
  else
    let db1 := db.map (dateWrite taskIds newDate)
    let allSubtaskIds := taskIds.flatMap
      (fun i => (getAllSubtasksRecursive db1 fuel i).map (·.id))
    if allSubtaskIds.isEmpty then db1
    else db1.map (dateCascadeWrite allSubtaskIds newDate)

/-- SQLite BINARY collation on TEXT values: bytewise comparison of the UTF-8
encodings, which is the lexicographic order of the codepoints. -/
def strLt (a b : String) : Prop :=
  a.data < b.data

/-- Nonstrict variant of `strLt`. -/
def strLe (a b : String) : Prop :=
  a.data ≤ b.data

instance : DecidableRel strLt := fun a b => by
  unfold strLt; infer_instance

instance : DecidableRel strLe := fun a b => by
  unfold strLe; infer_instance

/-- Predicate of the `matching_tasks` CTE of `getTodaysTasks`:
`(due_date >= $1 AND due_date <= $2) OR (due_date < $1 AND completed = 0)`
with `$1`/`$2` the bounds of today. -/
def matchesToday (startOfDay endOfDay : String) (t : DatabaseTask) : Bool :=
  (decide (strLe startOfDay t.due_date) && decide (strLe t.due_date endOfDay))
    || (decide (strLt t.due_date startOfDay) && !t.completed)

/-- Predicate of the `matching_tasks` CTE of `getTomorrowsTasks`:
`(due_date >= $1 AND due_date <= $2) OR (due_date < $3 AND completed = 0)`
with `$1`/`$2` the bounds of tomorrow and `$3` the start of today. -/
def matchesTomorrow (startOfDay endOfDay startOfToday : String)
    (t : DatabaseTask) : Bool :=
  (decide (strLe startOfDay t.due_date) && decide (strLe t.due_date endOfDay))
    || (decide (strLt t.due_date startOfToday) && !t.completed)

/-- Membership in the `parent_hierarchy` recursive CTE: the matching rows
plus, recursively, their parents.  A row belongs iff it matches or some
descendant matches, computed here by enumerating the subtree. -/
def inHierarchy (db : List DatabaseTask) (fuel : Nat)
    (pred : DatabaseTask → Bool) (t : DatabaseTask) : Bool :=
  pred t || (getAllSubtasksRecursive db fuel t.id).any pred

/-- The row is counted as overdue by the ORDER BY of the date queries:
`due_date < $s AND completed = 0` where `$s` is the start of today. -/
def overdueFlag (s : String) (t : DatabaseTask) : Bool :=
  decide (strLt t.due_date s) && !t.completed

/-- Sort key of the ORDER BY clause shared by `getTodaysTasks` and
`getTomorrowsTasks` (with `s` the start of today):

1. `CASE WHEN due_date < s AND completed = 0 THEN 0 ELSE 1 END` ascending;
2. `parent_id` ascending, SQLite NULLs first;
3. `task_order` ascending;
4. `CASE WHEN due_date < s AND completed = 0 THEN due_date END` descending,
   SQLite NULLs last under DESC;
5. `created_at` ascending. -/
def queryKey (s : String) (t : DatabaseTask) :
    Lex (Nat × Lex (Lex (Nat × List Char) ×
      Lex (Int × Lex (Lex (Nat × (List Char)ᵒᵈ) × List Char)))) :=
  let k1 : Nat := if overdueFlag s t then 0 else 1
  let k2 : Lex (Nat × List Char) :=
    match t.parent_id with
    | none => toLex (0, [])
    | some p => toLex (1, p.data)
  let k4 : Lex (Nat × (List Char)ᵒᵈ) :=
    if overdueFlag s t then toLex (0, OrderDual.toDual t.due_date.data)
    else toLex (1, OrderDual.toDual [])
  toLex (k1, toLex (k2, toLex (t.task_order, toLex (k4, t.created_at.data))))

/-- Row comparison realising the ORDER BY of the date queries. -/
def queryLe (s : String) (a b : DatabaseTask) : Prop :=
  queryKey s a ≤ queryKey s b

instance (s : String) : DecidableRel (queryLe s) := fun a b => by
  unfold queryLe; infer_instance

instance (s : String) : IsTotal DatabaseTask (queryLe s) :=
  ⟨fun a b => le_total (queryKey s a) (queryKey s b)⟩

instance (s : String) : IsTrans DatabaseTask (queryLe s) :=
  ⟨fun _ _ _ h1 h2 => le_trans h1 h2⟩

/-- `TaskService.getTodaysTasks` with the date bounds precomputed: rows of
the parent hierarchy of the matching set, in ORDER BY order.  For this query
the overdue cutoff of the ORDER BY equals `startOfDay`. -/
def getTodaysTasks (fuel : Nat) (db : List DatabaseTask)
    (startOfDay endOfDay : String) : List DatabaseTask :=
  (db.filter (inHierarchy db fuel (matchesToday startOfDay endOfDay))).insertionSort
    (queryLe startOfDay)

/-- `TaskService.getTomorrowsTasks` with the date bounds precomputed:
`startOfDay`/`endOfDay` bound tomorrow, `startOfToday` is the overdue cutoff
used both in the match predicate and in the ORDER BY. -/
def getTomorrowsTasks (fuel : Nat) (db : List DatabaseTask)
    (startOfDay endOfDay startOfToday : String) : List DatabaseTask :=
  (db.filter (inHierarchy db fuel
      (matchesTomorrow startOfDay endOfDay startOfToday))).insertionSort
    (queryLe startOfToday)

/-! Specification-side apparatus: identifiers, ranks, descendants and the
completion invariant used to state the claims. -/

/-- The primary keys of the table are pairwise distinct. -/
def NodupIds (db : List DatabaseTask) : Prop :=
  (db.map (·.id)).Nodup

/-- A rank function witnessing that the parent relation is acyclic (spec
invariant I1): every stored parent reference strictly decreases the rank. -/
def RankOK (d : String → Nat) (db : List DatabaseTask) : Prop :=
  ∀ t ∈ db, ∀ p, t.parent_id = some p → d p < d t.id

/-- All ranks of stored rows lie below the bound (used to size the fuel). -/
def RankBound (d : String → Nat) (bound : Nat) (db : List DatabaseTask) : Prop :=
  ∀ t ∈ db, d t.id < bound

/-- Strict descendant relation of the stored forest: `Desc db a x` holds when
the row `x` lies strictly below the id `a` following `parent_id` links. -/
inductive Desc (db : List DatabaseTask) : String → String → Prop
  | child (t : DatabaseTask) (a : String) : t ∈ db → t.parent_id = some a → Desc db a t.id
  | step (t : DatabaseTask) (a x : String) :
      t ∈ db → t.parent_id = some a → Desc db t.id x → Desc db a x

/-- Completion consistency (spec invariant I3) at one id: when the id denotes
a stored row with at least one child, the row is completed iff all its
children are. -/
def OkAt (db : List DatabaseTask) (pid : String) : Prop :=
  ∀ prow ∈ db, prow.id = pid → childRows db pid ≠ [] →
    (prow.completed = true ↔ ∀ c ∈ childRows db pid, c.completed = true)

/-- Completion consistency everywhere (spec invariant I3). -/
def I3 (db : List DatabaseTask) : Prop :=
  ∀ t ∈ db, OkAt db t.id

/-- Completion consistency everywhere except possibly at one id. -/
def I3Except (db : List DatabaseTask) (x : String) : Prop :=
  ∀ t ∈ db, t.id ≠ x → OkAt db t.id

/-- No row is completed while having an incomplete child (the half of I3
that the delete loop preserves: its propagation only completes tasks). -/
def NoFalseComplete (db : List DatabaseTask) : Prop :=
  ∀ t ∈ db, t.completed = true → ∀ c ∈ childRows db t.id, c.completed = true

/-- The fields a completion propagation never writes (everything except
`completed` and `completed_at`). -/
def coreEq (a b : DatabaseTask) : Prop :=
  a.id = b.id ∧ a.name = b.name ∧ a.parent_id = b.parent_id ∧
    a.created_at = b.created_at ∧ a.due_date = b.due_date ∧
    a.task_order = b.task_order

/-- Pointwise `coreEq` of two table states: same rows in the same positions
up to completion flags. -/
def StructEq (s r : List DatabaseTask) : Prop :=
  List.Forall₂ coreEq s r

/-- Frame of a completion propagation run from state `s` to state `r`: rows
keep every field except possibly the completion flags, and a row that has no
children in `s` is not touched at all. -/
def PropFrame (s r : List DatabaseTask) : Prop :=
  List.Forall₂ (fun a b => coreEq a b ∧ (childRows s a.id = [] → b = a)) s r

/-- Postcondition of `handleParentChildCompletion` started at `y`: the parent
of the row `y` ends up completion-consistent.  When `y` was just completed
the guarantee needs the parent not to be in the one unreachable bad state
(completed while already having an incomplete child). -/
def FixesParent (db r : List DatabaseTask) (y : String) : Prop :=
  ∀ yrow ∈ db, yrow.id = y → ∀ p, yrow.parent_id = some p →
    (yrow.completed = false → OkAt r p) ∧
    (yrow.completed = true →
      (∀ prow ∈ db, prow.id = p → prow.completed = true →
        ∀ c ∈ childRows db p, c.completed = true) →
      OkAt r p)

/-- The set of order values of a parent group is exactly `{0, ..., n-1}`
(spec invariant I2), expressed as a permutation of `List.range`. -/
def ContiguousGroup (db : List DatabaseTask) (pid : Option String) : Prop :=
  ((db.filter (fun t => t.parent_id == pid)).map (·.task_order)).Perm
    ((List.range (db.filter (fun t => t.parent_id == pid)).length).map
      (fun n : Nat => (n : Int)))

/-! Basic lemmas about rows, lookup, sibling sets and flag writes. -/

theorem coreEq_refl (t : DatabaseTask) : coreEq t t :=
  ⟨rfl, rfl, rfl, rfl, rfl, rfl⟩

theorem coreEq_trans {a b c : DatabaseTask} (h1 : coreEq a b) (h2 : coreEq b c) :
    coreEq a c := by
  obtain ⟨e1, e2, e3, e4, e5, e6⟩ := h1
  obtain ⟨f1, f2, f3, f4, f5, f6⟩ := h2
  exact ⟨e1.trans f1, e2.trans f2, e3.trans f3, e4.trans f4, e5.trans f5, e6.trans f6⟩

theorem structEq_refl (s : List DatabaseTask) : StructEq s s :=
  List.forall₂_same.mpr fun t _ => coreEq_refl t

theorem structEq_trans {a b c : List DatabaseTask}
    (h1 : StructEq a b) (h2 : StructEq b c) : StructEq a c := by
  induction h1 generalizing c with
  | nil => cases h2; exact List.Forall₂.nil
  | cons hr _ ih =>
    cases h2 with
    | cons hr2 htail => exact List.Forall₂.cons (coreEq_trans hr hr2) (ih htail)

theorem structEq_map_id {s r : List DatabaseTask} (h : StructEq s r) :
    s.map (·.id) = r.map (·.id) := by
  induction h with
  | nil => rfl
  | cons hr _ ih => simpa [hr.1] using ih

theorem structEq_nodupIds {s r : List DatabaseTask} (h : StructEq s r)
    (hn : NodupIds s) : NodupIds r := by
  unfold NodupIds at *
  rwa [structEq_map_id h] at hn

theorem structEq_mem_right {s r : List DatabaseTask} (h : StructEq s r)
    {u : DatabaseTask} (hu : u ∈ r) : ∃ t ∈ s, coreEq t u := by
  induction h with
  | nil => cases hu
  | cons hr _ ih =>
    rcases List.mem_cons.1 hu with rfl | hu2
    · exact ⟨_, List.mem_cons_self _ _, hr⟩
    · obtain ⟨t, ht, hc⟩ := ih hu2
      exact ⟨t, List.mem_cons_of_mem _ ht, hc⟩

theorem structEq_mem_left {s r : List DatabaseTask} (h : StructEq s r)
    {t : DatabaseTask} (ht : t ∈ s) : ∃ u ∈ r, coreEq t u := by
  induction h with
  | nil => cases ht
  | cons hr _ ih =>
    rcases List.mem_cons.1 ht with rfl | ht2
    · exact ⟨_, List.mem_cons_self _ _, hr⟩
    · obtain ⟨u, hu, hc⟩ := ih ht2
      exact ⟨u, List.mem_cons_of_mem _ hu, hc⟩

theorem structEq_rankOK {s r : List DatabaseTask} {d : String → Nat}
    (h : StructEq s r) (hr : RankOK d s) : RankOK d r := by
  intro u hu p hp
  obtain ⟨t, ht, hc⟩ := structEq_mem_right h hu
  have := hr t ht p (by rw [hc.2.2.1]; exact hp)
  rwa [hc.1] at this

theorem structEq_childRows {s r : List DatabaseTask} (h : StructEq s r)
    (q : String) : StructEq (childRows s q) (childRows r q) := by
  induction h with
  | nil => exact List.Forall₂.nil
  | @cons a b l1 l2 hr _ ih =>
    unfold childRows at *
    by_cases hp : a.parent_id = some q
    · have hbp : b.parent_id = some q := by rw [← hr.2.2.1]; exact hp
      simp only [List.filter_cons, hp, hbp, beq_self_eq_true, if_pos]
      exact List.Forall₂.cons hr ih
    · have hbp : ¬ b.parent_id = some q := by rw [← hr.2.2.1]; exact hp
      simp only [List.filter_cons]
      rw [if_neg (by simpa using hp), if_neg (by simpa using hbp)]
      exact ih

theorem structEq_childRows_nil_iff {s r : List DatabaseTask} (h : StructEq s r)
    (q : String) : childRows s q = [] ↔ childRows r q = [] := by
  have h2 := (structEq_childRows h q).length_eq
  constructor <;> intro hx
  · exact List.length_eq_zero.1 (by rw [← h2, hx]; rfl)
  · exact List.length_eq_zero.1 (by rw [h2, hx]; rfl)

theorem propFrame_refl (s : List DatabaseTask) : PropFrame s s :=
  List.forall₂_same.mpr fun t _ => ⟨coreEq_refl t, fun _ => rfl⟩

theorem propFrame_structEq {s r : List DatabaseTask} (h : PropFrame s r) :
    StructEq s r :=
  List.Forall₂.imp (fun _ _ hab => hab.1) h


theorem forall₂_chain {P Q : DatabaseTask → Prop} :
    ∀ {s m r : List DatabaseTask},
    List.Forall₂ (fun a b => coreEq a b ∧ (P a → b = a)) s m →
    List.Forall₂ (fun b c => coreEq b c ∧ (Q b → c = b)) m r →
    (∀ a b, coreEq a b → P a → Q b) →
    List.Forall₂ (fun a c => coreEq a c ∧ (P a → c = a)) s r := by
  intro s m r h1 h2 compat
  induction h1 generalizing r with
  | nil => cases h2; exact List.Forall₂.nil
  | cons hab _ ih =>
    cases h2 with
    | cons hbc htail =>
      refine List.Forall₂.cons ⟨coreEq_trans hab.1 hbc.1, ?_⟩ (ih htail)
      intro hPa
      have hb := hab.2 hPa
      have hc := hbc.2 (compat _ _ hab.1 hPa)
      rw [hc, hb]

theorem propFrame_trans {s m r : List DatabaseTask}
    (h1 : PropFrame s m) (h2 : PropFrame m r) : PropFrame s r := by
  refine forall₂_chain h1 h2 ?_
  intro a b hc hP
  have hse : StructEq s m := propFrame_structEq h1
  rw [← hc.1]
  exact (structEq_childRows_nil_iff hse a.id).1 hP

theorem of_findTask_eq_some {db : List DatabaseTask} {i : String}
    {t : DatabaseTask} (h : findTask db i = some t) : t ∈ db ∧ t.id = i := by
  refine ⟨List.mem_of_find?_eq_some h, ?_⟩
  have := List.find?_some h
  simpa using this

theorem findTask_eq_none_iff {db : List DatabaseTask} {i : String} :
    findTask db i = none ↔ ∀ t ∈ db, t.id ≠ i := by
  unfold findTask
  rw [List.find?_eq_none]
  constructor
  · intro h t ht; simpa using h t ht
  · intro h t ht; simpa using h t ht

theorem row_unique {db : List DatabaseTask} (hn : NodupIds db)
    {t u : DatabaseTask} (ht : t ∈ db) (hu : u ∈ db) (h : t.id = u.id) :
    t = u := by
  induction db with
  | nil => cases ht
  | cons a l ih =>
    have hn2 : NodupIds l := by
      unfold NodupIds at hn ⊢
      exact (List.nodup_cons.1 hn).2
    have ha : a.id ∉ l.map (·.id) := by
      unfold NodupIds at hn
      exact (List.nodup_cons.1 hn).1
    rcases List.mem_cons.1 ht with rfl | ht2 <;>
      rcases List.mem_cons.1 hu with rfl | hu2
    · rfl
    · rw [h] at ha
      exact absurd (List.mem_map_of_mem (·.id) hu2) ha
    · rw [← h] at ha
      exact absurd (List.mem_map_of_mem (·.id) ht2) ha
    · exact ih hn2 ht2 hu2

theorem findTask_eq_some_of_mem {db : List DatabaseTask} (hn : NodupIds db)
    {t : DatabaseTask} {i : String} (ht : t ∈ db) (hid : t.id = i) :
    findTask db i = some t := by
  unfold findTask
  cases hfind : db.find? (fun u => u.id == i) with
  | none =>
    rw [List.find?_eq_none] at hfind
    exact absurd (by simpa using hid) (hfind t ht)
  | some u =>
    have hu : u ∈ db ∧ u.id = i := of_findTask_eq_some hfind
    rw [row_unique hn ht hu.1 (by rw [hid, hu.2])]

theorem flagWrite_core (i : String) (c : Bool) (a : Option String)
    (t : DatabaseTask) : coreEq t (flagWrite i c a t) := by
  unfold flagWrite
  split <;> exact ⟨rfl, rfl, rfl, rfl, rfl, rfl⟩

theorem flagWrite_id (i : String) (c : Bool) (a : Option String)
    (t : DatabaseTask) : (flagWrite i c a t).id = t.id :=
  ((flagWrite_core i c a t).1).symm

theorem flagWrite_parent (i : String) (c : Bool) (a : Option String)
    (t : DatabaseTask) : (flagWrite i c a t).parent_id = t.parent_id :=
  ((flagWrite_core i c a t).2.2.1).symm

theorem flagWrite_of_ne {i : String} {c : Bool} {a : Option String}
    {t : DatabaseTask} (h : t.id ≠ i) : flagWrite i c a t = t := by
  unfold flagWrite
  rw [if_neg (by simpa using h)]

theorem flagWrite_of_eq {i : String} {c : Bool} {a : Option String}
    {t : DatabaseTask} (h : t.id = i) :
    flagWrite i c a t = { t with completed := c, completed_at := a } := by
  unfold flagWrite
  rw [if_pos (by simpa using h)]

theorem flagWrite_completed_of_ne {i : String} {c : Bool} {a : Option String}
    {t : DatabaseTask} (h : t.id ≠ i) : (flagWrite i c a t).completed = t.completed := by
  rw [flagWrite_of_ne h]

theorem childRows_setCompleted (db : List DatabaseTask) (i : String)
    (c : Bool) (a : Option String) (q : String) :
    childRows (setCompleted db i c a) q = (childRows db q).map (flagWrite i c a) := by
  unfold childRows setCompleted
  rw [List.filter_map]
  congr 1
  apply List.filter_congr
  intro t _
  simp [Function.comp, flagWrite_parent]

theorem findTask_setCompleted (db : List DatabaseTask) (i : String)
    (c : Bool) (a : Option String) (q : String) :
    findTask (setCompleted db i c a) q = (findTask db q).map (flagWrite i c a) := by
  unfold findTask setCompleted
  rw [List.find?_map]
  have hpred : ((fun t : DatabaseTask => t.id == q) ∘ flagWrite i c a)
      = (fun t : DatabaseTask => t.id == q) := by
    funext t
    simp [Function.comp, flagWrite_id]
  rw [hpred]

theorem setCompleted_structEq (db : List DatabaseTask) (i : String)
    (c : Bool) (a : Option String) : StructEq db (setCompleted db i c a) := by
  unfold setCompleted StructEq
  rw [List.forall₂_map_right_iff]
  exact List.forall₂_same.mpr fun t _ => flagWrite_core i c a t

theorem mem_getSubtasks_iff {db : List DatabaseTask} {pid : String}
    {t : DatabaseTask} : t ∈ getSubtasks db pid ↔ t ∈ childRows db pid :=
  (List.perm_insertionSort orderLe (childRows db pid)).mem_iff

theorem getSubtasks_all_iff {db : List DatabaseTask} {pid : String}
    {f : DatabaseTask → Bool} :
    (getSubtasks db pid).all f = true ↔ ∀ t ∈ childRows db pid, f t = true := by
  rw [List.all_eq_true]
  constructor
  · intro h t ht; exact h t (mem_getSubtasks_iff.2 ht)
  · intro h t ht; exact h t (mem_getSubtasks_iff.1 ht)

theorem getSubtasks_isEmpty_iff {db : List DatabaseTask} {pid : String} :
    (getSubtasks db pid).isEmpty = true ↔ childRows db pid = [] := by
  rw [List.isEmpty_iff]
  constructor
  · intro h
    have hp := List.perm_insertionSort orderLe (childRows db pid)
    unfold getSubtasks at h
    rw [h] at hp
    exact hp.symm.eq_nil
  · intro h
    unfold getSubtasks
    rw [h]
    rfl

theorem okAt_of_childRows_nil {db : List DatabaseTask} {p : String}
    (h : childRows db p = []) : OkAt db p := by
  intro prow _ _ hne
  exact absurd h hne

theorem okAt_of_no_row {db : List DatabaseTask} {p : String}
    (h : ∀ t ∈ db, t.id ≠ p) : OkAt db p := by
  intro prow hmem hid _
  exact absurd hid (h prow hmem)

theorem mem_childRows_iff {db : List DatabaseTask} {p : String}
    {t : DatabaseTask} : t ∈ childRows db p ↔ t ∈ db ∧ t.parent_id = some p := by
  unfold childRows
  rw [List.mem_filter]
  simp

/-! Effects of a single completion write on the invariant. -/

theorem not_all_completed {db : List DatabaseTask} {p : String}
    (h : ¬ ∀ c ∈ childRows db p, c.completed = true) :
    ∃ c ∈ childRows db p, c.completed = false := by
  push_neg at h
  obtain ⟨c, hc, hf⟩ := h
  exact ⟨c, hc, by simpa using hf⟩

theorem okAt_setCompleted_true {db : List DatabaseTask} {p : String}
    {a : Option String} (h : ∀ c ∈ childRows db p, c.completed = true) :
    OkAt (setCompleted db p true a) p := by
  intro prow hmem hid _
  constructor
  · intro _ c hc
    rw [childRows_setCompleted] at hc
    obtain ⟨c0, hc0, rfl⟩ := List.mem_map.1 hc
    by_cases hcp : c0.id = p
    · rw [flagWrite_of_eq hcp]
    · rw [flagWrite_of_ne hcp]
      exact h c0 hc0
  · intro _
    obtain ⟨t, ht, rfl⟩ := List.mem_map.1 hmem
    rw [flagWrite_id] at hid
    rw [flagWrite_of_eq hid]

theorem okAt_setCompleted_false {db : List DatabaseTask} {p : String}
    {c0 : DatabaseTask} (hc : c0 ∈ childRows db p)
    (hcase : c0.id = p ∨ c0.completed = false) :
    OkAt (setCompleted db p false none) p := by
  intro prow hmem hid _
  have hprow : prow.completed = false := by
    obtain ⟨t, ht, rfl⟩ := List.mem_map.1 hmem
    rw [flagWrite_id] at hid
    rw [flagWrite_of_eq hid]
  constructor
  · intro habs
    rw [hprow] at habs
    cases habs
  · intro hall
    have hmemc : flagWrite p false none c0 ∈ childRows (setCompleted db p false none) p := by
      rw [childRows_setCompleted]
      exact List.mem_map_of_mem _ hc
    have := hall _ hmemc
    rcases hcase with hcp | hcf
    · rw [flagWrite_of_eq hcp] at this
      cases this
    · by_cases hcp : c0.id = p
      · rw [flagWrite_of_eq hcp] at this
        cases this
      · rw [flagWrite_of_ne hcp] at this
        rw [hcf] at this
        cases this

theorem okAt_setCompleted_of_not_child {db : List DatabaseTask}
    {q i : String} {c : Bool} {a : Option String} (hq : OkAt db q)
    (hneq : q ≠ i) (hnc : ∀ c0 ∈ childRows db q, c0.id ≠ i) :
    OkAt (setCompleted db i c a) q := by
  have hchild : childRows (setCompleted db i c a) q = childRows db q := by
    rw [childRows_setCompleted]
    have : ∀ c0 ∈ childRows db q, flagWrite i c a c0 = c0 := by
      intro c0 hc0
      exact flagWrite_of_ne (hnc c0 hc0)
    calc (childRows db q).map (flagWrite i c a)
        = (childRows db q).map id := List.map_congr_left this
      _ = childRows db q := List.map_id _
  intro prow hmem hid hne
  obtain ⟨t, ht, rfl⟩ := List.mem_map.1 hmem
  rw [flagWrite_id] at hid
  rw [flagWrite_of_ne (by rw [hid]; exact hneq)]
  rw [hchild] at hne ⊢
  exact hq t ht hid hne

theorem nfc_setCompleted_true {db : List DatabaseTask} {p : String}
    {a : Option String} (hn : NoFalseComplete db)
    (hall : ∀ c ∈ childRows db p, c.completed = true) :
    NoFalseComplete (setCompleted db p true a) := by
  intro u hu hc c hcmem
  obtain ⟨t, ht, rfl⟩ := List.mem_map.1 hu
  rw [flagWrite_id] at hcmem
  rw [childRows_setCompleted] at hcmem
  obtain ⟨c0, hc0, rfl⟩ := List.mem_map.1 hcmem
  by_cases hcp : c0.id = p
  · rw [flagWrite_of_eq hcp]
  · rw [flagWrite_of_ne hcp]
    by_cases htp : t.id = p
    · exact hall c0 (by rwa [htp] at hc0)
    · rw [flagWrite_of_ne htp] at hc
      exact hn t ht hc c0 hc0

theorem nfc_gives_fix_precondition {s : List DatabaseTask} {g : String}
    (hnfc : NoFalseComplete s) :
    ∀ prow ∈ s, prow.id = g → prow.completed = true →
      ∀ c ∈ childRows s g, c.completed = true := by
  intro prow hmem hid hc c hcm
  exact hnfc prow hmem hc c (by rwa [hid])

theorem propFrame_setCompleted {db : List DatabaseTask} {i : String}
    {c : Bool} {a : Option String}
    (hch : childRows db i ≠ []) : PropFrame db (setCompleted db i c a) := by
  unfold PropFrame setCompleted
  rw [List.forall₂_map_right_iff]
  apply List.forall₂_same.mpr
  intro t _
  refine ⟨flagWrite_core i c a t, ?_⟩
  intro hnil
  apply flagWrite_of_ne
  intro hid
  rw [hid] at hnil
  exact hch hnil

theorem upcs_succ (now : String) (fuel : Nat) (db : List DatabaseTask)
    (parentId : String) :
    updateParentCompletionStatus now (fuel + 1) db parentId =
      if (getSubtasks db parentId).isEmpty then db
      else
        match findTask db parentId with
        | none => db
        | some parent =>
          if (getSubtasks db parentId).all (·.completed) && !parent.completed then
            match parent.parent_id with
            | some pp =>
              updateParentCompletionStatus now fuel
                (setCompleted db parentId true (some now)) pp
            | none => setCompleted db parentId true (some now)
          else if !((getSubtasks db parentId).all (·.completed)) && parent.completed then
            match parent.parent_id with
            | some pp =>
              updateParentCompletionStatus now fuel
                (setCompleted db parentId false none) pp
            | none => setCompleted db parentId false none
          else db := rfl

/-! Master lemma for `updateParentCompletionStatus`: it never breaks the
completion invariant anywhere, restores it at its argument, and only ever
rewrites completion flags of rows that have children. -/

theorem upcs_spec (now : String) (d : String → Nat) :
    ∀ (fuel : Nat) (s : List DatabaseTask) (pid : String),
      NodupIds s → RankOK d s → d pid < fuel →
      PropFrame s (updateParentCompletionStatus now fuel s pid) ∧
      (∀ q, OkAt s q → OkAt (updateParentCompletionStatus now fuel s pid) q) ∧
      OkAt (updateParentCompletionStatus now fuel s pid) pid := by
  intro fuel
  induction fuel with
  | zero => intro s pid _ _ hd; exact absurd hd (by omega)
  | succ fuel ih =>
    intro s pid hn hr hd
    by_cases hempty : (getSubtasks s pid).isEmpty = true
    · have hred : updateParentCompletionStatus now (fuel + 1) s pid = s := by
        rw [upcs_succ, if_pos hempty]
      rw [hred]
      exact ⟨propFrame_refl s, fun q hq => hq,
        okAt_of_childRows_nil (getSubtasks_isEmpty_iff.1 hempty)⟩
    · cases hfind : findTask s pid with
      | none =>
        have hred : updateParentCompletionStatus now (fuel + 1) s pid = s := by
          rw [upcs_succ, if_neg hempty, hfind]
        rw [hred]
        exact ⟨propFrame_refl s, fun q hq => hq,
          okAt_of_no_row (findTask_eq_none_iff.1 hfind)⟩
      | some parent =>
        obtain ⟨hpmem, hpid⟩ := of_findTask_eq_some hfind
        have hchildne : childRows s pid ≠ [] := by
          intro habs
          exact hempty (getSubtasks_isEmpty_iff.2 habs)
        have hnotchild : ∀ q, parent.parent_id ≠ some q →
            ∀ c0 ∈ childRows s q, c0.id ≠ pid := by
          intro q hq c0 hc0 hcid
          obtain ⟨hc0mem, hc0par⟩ := mem_childRows_iff.1 hc0
          have : c0 = parent := row_unique hn hc0mem hpmem (by rw [hcid, hpid])
          rw [this] at hc0par
          exact hq hc0par
        by_cases hall : (getSubtasks s pid).all (·.completed) = true
        · by_cases hpc : parent.completed = true
          · -- flag already consistent: the function stops
            have hred : updateParentCompletionStatus now (fuel + 1) s pid = s := by
              rw [upcs_succ, if_neg hempty, hfind]
              dsimp only
              rw [if_neg (by simp [hall, hpc]), if_neg (by simp [hall, hpc])]
            rw [hred]
            refine ⟨propFrame_refl s, fun q hq => hq, ?_⟩
            intro prow hmem hid _
            have hprow : prow = parent := row_unique hn hmem hpmem (by rw [hid, hpid])
            rw [hprow]
            exact ⟨fun _ => getSubtasks_all_iff.1 hall, fun _ => hpc⟩
          · -- auto-complete the parent
            have hallc := getSubtasks_all_iff.1 hall
            have hok1 : OkAt (setCompleted s pid true (some now)) pid :=
              okAt_setCompleted_true hallc
            have hframe1 : PropFrame s (setCompleted s pid true (some now)) :=
              propFrame_setCompleted hchildne
            have hs1 : StructEq s (setCompleted s pid true (some now)) :=
              setCompleted_structEq s pid true (some now)
            have hs1n := structEq_nodupIds hs1 hn
            have hs1r := structEq_rankOK hs1 hr
            cases hpp : parent.parent_id with
            | none =>
              have hred : updateParentCompletionStatus now (fuel + 1) s pid
                  = setCompleted s pid true (some now) := by
                rw [upcs_succ, if_neg hempty, hfind]
                dsimp only
                rw [if_pos (by simp [hall, hpc]), hpp]
              rw [hred]
              refine ⟨hframe1, ?_, hok1⟩
              intro q hq
              by_cases hqp : q = pid
              · rw [hqp]; exact hok1
              · exact okAt_setCompleted_of_not_child hq hqp
                  (hnotchild q (by rw [hpp]; intro h; cases h))
            | some pp =>
              have hdpp : d pp < fuel := by
                have := hr parent hpmem pp hpp
                rw [hpid] at this
                omega
              obtain ⟨F2, P2, _⟩ := ih (setCompleted s pid true (some now)) pp hs1n hs1r hdpp
              have hred : updateParentCompletionStatus now (fuel + 1) s pid
                  = updateParentCompletionStatus now fuel
                      (setCompleted s pid true (some now)) pp := by
                rw [upcs_succ, if_neg hempty, hfind]
                dsimp only
                rw [if_pos (by simp [hall, hpc]), hpp]
              rw [hred]
              refine ⟨propFrame_trans hframe1 F2, ?_, P2 pid hok1⟩
              intro q hq
              by_cases hqp : q = pid
              · rw [hqp]; exact P2 pid hok1
              · by_cases hqpp : q = pp
                · rw [hqpp]
                  obtain ⟨_, _, O2⟩ := ih (setCompleted s pid true (some now)) pp hs1n hs1r hdpp
                  exact O2
                · refine P2 q (okAt_setCompleted_of_not_child hq hqp ?_)
                  refine hnotchild q ?_
                  rw [hpp]
                  intro h
                  cases h
                  exact hqpp rfl
        · by_cases hpc : parent.completed = true
          · -- auto-uncomplete the parent
            obtain ⟨c0, hc0, hc0f⟩ : ∃ c ∈ childRows s pid, c.completed = false := by
              apply not_all_completed
              intro h
              exact hall (getSubtasks_all_iff.2 h)
            have hok1 : OkAt (setCompleted s pid false none) pid :=
              okAt_setCompleted_false hc0 (Or.inr hc0f)
            have hframe1 : PropFrame s (setCompleted s pid false none) :=
              propFrame_setCompleted hchildne
            have hs1 : StructEq s (setCompleted s pid false none) :=
              setCompleted_structEq s pid false none
            have hs1n := structEq_nodupIds hs1 hn
            have hs1r := structEq_rankOK hs1 hr
            cases hpp : parent.parent_id with
            | none =>
              have hred : updateParentCompletionStatus now (fuel + 1) s pid
                  = setCompleted s pid false none := by
                rw [upcs_succ, if_neg hempty, hfind]
                dsimp only
                rw [if_neg (by simp [hall, hpc]), if_pos (by simp [hall, hpc]), hpp]
              rw [hred]
              refine ⟨hframe1, ?_, hok1⟩
              intro q hq
              by_cases hqp : q = pid
              · rw [hqp]; exact hok1
              · exact okAt_setCompleted_of_not_child hq hqp
                  (hnotchild q (by rw [hpp]; intro h; cases h))
            | some pp =>
              have hdpp : d pp < fuel := by
                have := hr parent hpmem pp hpp
                rw [hpid] at this
                omega
              obtain ⟨F2, P2, _⟩ := ih (setCompleted s pid false none) pp hs1n hs1r hdpp
              have hred : updateParentCompletionStatus now (fuel + 1) s pid
                  = updateParentCompletionStatus now fuel
                      (setCompleted s pid false none) pp := by
                rw [upcs_succ, if_neg hempty, hfind]
                dsimp only
                rw [if_neg (by simp [hall, hpc]), if_pos (by simp [hall, hpc]), hpp]
              rw [hred]
              refine ⟨propFrame_trans hframe1 F2, ?_, P2 pid hok1⟩
              intro q hq
              by_cases hqp : q = pid
              · rw [hqp]; exact P2 pid hok1
              · by_cases hqpp : q = pp
                · rw [hqpp]
                  obtain ⟨_, _, O2⟩ := ih (setCompleted s pid false none) pp hs1n hs1r hdpp
                  exact O2
                · refine P2 q (okAt_setCompleted_of_not_child hq hqp ?_)
                  refine hnotchild q ?_
                  rw [hpp]
                  intro h
                  cases h
                  exact hqpp rfl
          · -- flag already consistent (incomplete with an incomplete child)
            have hred : updateParentCompletionStatus now (fuel + 1) s pid = s := by
              rw [upcs_succ, if_neg hempty, hfind]
              dsimp only
              rw [if_neg (by simp [hall, hpc]), if_neg (by simp [hall, hpc])]
            rw [hred]
            refine ⟨propFrame_refl s, fun q hq => hq, ?_⟩
            intro prow hmem hid _
            have hprow : prow = parent := row_unique hn hmem hpmem (by rw [hid, hpid])
            rw [hprow]
            constructor
            · intro habs
              exact absurd habs hpc
            · intro hallc
              exact absurd (getSubtasks_all_iff.2 hallc) hall

theorem handle_succ (now : String) (fuel : Nat) (db : List DatabaseTask)
    (taskId : String) :
    handleParentChildCompletion now (fuel + 1) db taskId =
      match findTask db taskId with
      | none => db
      | some task =>
        match task.parent_id with
        | none => db
        | some pid =>
          if task.completed then
            if (getSubtasks db pid).all (·.completed) then
              handleParentChildCompletion now fuel
                (setCompleted db pid true (some now)) pid
            else db
          else
            match findTask db pid with
            | none => db
            | some parent =>
              if parent.completed then
                if parent.parent_id.isSome then
                  handleParentChildCompletion now fuel
                    (setCompleted db pid false none) pid
                else setCompleted db pid false none
              else db := rfl

/-! Master lemma for `handleParentChildCompletion`: it never breaks the
completion invariant anywhere, it restores it at the parent of the task it
was started from (for a just-completed task this needs every completed
ancestorless parent-candidate to be consistent, which the callers obtain
from `NoFalseComplete` or from the pre-state invariant), it preserves
`NoFalseComplete` when started from a completed task, and it only rewrites
completion flags of rows that have children. -/

theorem handle_spec (now : String) (d : String → Nat) :
    ∀ (fuel : Nat) (s : List DatabaseTask) (y : String),
      NodupIds s → RankOK d s → d y < fuel →
      PropFrame s (handleParentChildCompletion now fuel s y) ∧
      (∀ q, OkAt s q → OkAt (handleParentChildCompletion now fuel s y) q) ∧
      FixesParent s (handleParentChildCompletion now fuel s y) y ∧
      ((∀ yrow ∈ s, yrow.id = y → yrow.completed = true) → NoFalseComplete s →
        NoFalseComplete (handleParentChildCompletion now fuel s y)) := by
  intro fuel
  induction fuel with
  | zero => intro s y _ _ hd; exact absurd hd (by omega)
  | succ fuel ih =>
    intro s y hn hr hd
    cases hfind : findTask s y with
    | none =>
      have hred : handleParentChildCompletion now (fuel + 1) s y = s := by
        rw [handle_succ, hfind]
      rw [hred]
      refine ⟨propFrame_refl s, fun q hq => hq, ?_, fun _ h2 => h2⟩
      intro yrow hmem hid p _
      exact absurd hid (findTask_eq_none_iff.1 hfind yrow hmem)
    | some task =>
      obtain ⟨htmem, htid⟩ := of_findTask_eq_some hfind
      cases htp : task.parent_id with
      | none =>
        have hred : handleParentChildCompletion now (fuel + 1) s y = s := by
          rw [handle_succ, hfind]; dsimp only; rw [htp]
        rw [hred]
        refine ⟨propFrame_refl s, fun q hq => hq, ?_, fun _ h2 => h2⟩
        intro yrow hmem hid p hp
        have : yrow = task := row_unique hn hmem htmem (by rw [hid, htid])
        rw [this, htp] at hp
        cases hp
      | some pid =>
        have htaskchild : task ∈ childRows s pid := mem_childRows_iff.2 ⟨htmem, htp⟩
        have hchildne : childRows s pid ≠ [] := List.ne_nil_of_mem htaskchild
        have hdpid : d pid < fuel := by
          have := hr task htmem pid htp
          rw [htid] at this
          omega
        have hyrow_is_task : ∀ yrow ∈ s, yrow.id = y → yrow = task := by
          intro yrow hmem hid
          exact row_unique hn hmem htmem (by rw [hid, htid])
        cases htc : task.completed with
        | true =>
          by_cases hall : (getSubtasks s pid).all (·.completed) = true
          · -- every sibling completed: complete the parent and recurse
            have hallc := getSubtasks_all_iff.1 hall
            have hok1 : OkAt (setCompleted s pid true (some now)) pid :=
              okAt_setCompleted_true hallc
            have hframe1 : PropFrame s (setCompleted s pid true (some now)) :=
              propFrame_setCompleted hchildne
            have hs1 : StructEq s (setCompleted s pid true (some now)) :=
              setCompleted_structEq s pid true (some now)
            have hs1n := structEq_nodupIds hs1 hn
            have hs1r := structEq_rankOK hs1 hr
            obtain ⟨F2, P2, FX2, N2⟩ :=
              ih (setCompleted s pid true (some now)) pid hs1n hs1r hdpid
            have hred : handleParentChildCompletion now (fuel + 1) s y
                = handleParentChildCompletion now fuel
                    (setCompleted s pid true (some now)) pid := by
              rw [handle_succ, hfind]; dsimp only; rw [htp]
              dsimp only
              rw [htc, if_pos rfl, if_pos hall]
            rw [hred]
            refine ⟨propFrame_trans hframe1 F2, ?_, ?_, ?_⟩
            · -- preservation
              intro q hq
              by_cases hqp : q = pid
              · rw [hqp]; exact P2 pid hok1
              · cases hpfind : findTask s pid with
                | none =>
                  refine P2 q (okAt_setCompleted_of_not_child hq hqp ?_)
                  intro c0 hc0 hcid
                  exact findTask_eq_none_iff.1 hpfind c0 (mem_childRows_iff.1 hc0).1 hcid
                | some prow =>
                  obtain ⟨hprmem, hprid⟩ := of_findTask_eq_some hpfind
                  by_cases hqgp : prow.parent_id = some q
                  · -- q is the grandparent: the recursive call recomputes it
                    have hyrow2 : flagWrite pid true (some now) prow
                        ∈ setCompleted s pid true (some now) :=
                      List.mem_map_of_mem _ hprmem
                    have hid2 : (flagWrite pid true (some now) prow).id = pid := by
                      rw [flagWrite_id, hprid]
                    have hpar2 : (flagWrite pid true (some now) prow).parent_id = some q := by
                      rw [flagWrite_parent, hqgp]
                    have hcmpl2 : (flagWrite pid true (some now) prow).completed = true := by
                      rw [flagWrite_of_eq hprid]
                    have := (FX2 _ hyrow2 hid2 q hpar2).2 hcmpl2
                    apply this
                    -- precondition: any completed q-row already has completed children
                    intro prow2 hmem2 hid2q hcmpl2q c hc
                    obtain ⟨t2, ht2, rfl⟩ := List.mem_map.1 hmem2
                    rw [flagWrite_id] at hid2q
                    have ht2ne : t2.id ≠ pid := by rw [hid2q]; exact hqp
                    rw [flagWrite_of_ne ht2ne] at hcmpl2q
                    have hqchildne : childRows s q ≠ [] :=
                      List.ne_nil_of_mem (mem_childRows_iff.2 ⟨hprmem, hqgp⟩)
                    have hallq := (hq t2 ht2 hid2q hqchildne).1 hcmpl2q
                    rw [childRows_setCompleted] at hc
                    obtain ⟨c0, hc0, rfl⟩ := List.mem_map.1 hc
                    by_cases hc0p : c0.id = pid
                    · rw [flagWrite_of_eq hc0p]
                    · rw [flagWrite_of_ne hc0p]
                      exact hallq c0 hc0
                  · refine P2 q (okAt_setCompleted_of_not_child hq hqp ?_)
                    intro c0 hc0 hcid
                    have : c0 = prow := row_unique hn (mem_childRows_iff.1 hc0).1
                      hprmem (by rw [hcid, hprid])
                    rw [this] at hc0
                    exact hqgp ((mem_childRows_iff.1 hc0).2 ▸ rfl) |>.elim
            · -- the parent ends up consistent
              intro yrow hmem hid p hp
              rw [hyrow_is_task yrow hmem hid, htp] at hp
              cases hp
              rw [hyrow_is_task yrow hmem hid, htc]
              exact ⟨fun h => Bool.noConfusion h, fun _ _ => P2 pid hok1⟩
            · -- NoFalseComplete preserved
              intro hy1 hnfc
              refine N2 ?_ (nfc_setCompleted_true hnfc hallc)
              intro yrow2 hmem2 hid2
              obtain ⟨t2, ht2, rfl⟩ := List.mem_map.1 hmem2
              rw [flagWrite_id] at hid2
              rw [flagWrite_of_eq hid2]
          · -- some sibling incomplete: stop
            have hred : handleParentChildCompletion now (fuel + 1) s y = s := by
              rw [handle_succ, hfind]; dsimp only; rw [htp]
              dsimp only
              rw [htc, if_pos rfl, if_neg hall]
            rw [hred]
            refine ⟨propFrame_refl s, fun q hq => hq, ?_, fun _ h2 => h2⟩
            intro yrow hmem hid p hp
            rw [hyrow_is_task yrow hmem hid, htp] at hp
            cases hp
            rw [hyrow_is_task yrow hmem hid, htc]
            refine ⟨fun h => Bool.noConfusion h, fun _ hprecond => ?_⟩
            intro prow hpm hpidq _
            constructor
            · intro hpct
              exact hprecond prow hpm hpidq hpct
            · intro hallc
              exact absurd (getSubtasks_all_iff.2 hallc) hall
        | false =>
          cases hpfind : findTask s pid with
          | none =>
            have hred : handleParentChildCompletion now (fuel + 1) s y = s := by
              rw [handle_succ, hfind]; dsimp only; rw [htp]
              dsimp only
              rw [htc, if_neg (by simp), hpfind]
            rw [hred]
            refine ⟨propFrame_refl s, fun q hq => hq, ?_, fun _ h2 => h2⟩
            intro yrow hmem hid p hp
            rw [hyrow_is_task yrow hmem hid, htp] at hp
            cases hp
            rw [hyrow_is_task yrow hmem hid, htc]
            exact ⟨fun _ => okAt_of_no_row (findTask_eq_none_iff.1 hpfind),
              fun h => Bool.noConfusion h⟩
          | some parent =>
            obtain ⟨hpmem2, hpid2⟩ := of_findTask_eq_some hpfind
            by_cases hpc : parent.completed = true
            · -- uncomplete the parent
              have hok1 : OkAt (setCompleted s pid false none) pid :=
                okAt_setCompleted_false htaskchild (Or.inr htc)
              have hframe1 : PropFrame s (setCompleted s pid false none) :=
                propFrame_setCompleted hchildne
              have hs1 : StructEq s (setCompleted s pid false none) :=
                setCompleted_structEq s pid false none
              have hs1n := structEq_nodupIds hs1 hn
              have hs1r := structEq_rankOK hs1 hr
              have hnotchild : ∀ q, parent.parent_id ≠ some q →
                  ∀ c0 ∈ childRows s q, c0.id ≠ pid := by
                intro q hq c0 hc0 hcid
                have : c0 = parent := row_unique hn (mem_childRows_iff.1 hc0).1
                  hpmem2 (by rw [hcid, hpid2])
                rw [this] at hc0
                exact hq (mem_childRows_iff.1 hc0).2
              cases hppv : parent.parent_id with
              | none =>
                have hred : handleParentChildCompletion now (fuel + 1) s y
                    = setCompleted s pid false none := by
                  rw [handle_succ, hfind]; dsimp only; rw [htp]
                  dsimp only
                  rw [htc, if_neg (by simp), hpfind]
                  dsimp only
                  rw [if_pos hpc, hppv]
                  rfl
                rw [hred]
                refine ⟨hframe1, ?_, ?_, fun h1 _ => ?_⟩
                · intro q hq
                  by_cases hqp : q = pid
                  · rw [hqp]; exact hok1
                  · exact okAt_setCompleted_of_not_child hq hqp
                      (hnotchild q (by rw [hppv]; intro h; cases h))
                · intro yrow hmem hid p hp
                  rw [hyrow_is_task yrow hmem hid, htp] at hp
                  cases hp
                  rw [hyrow_is_task yrow hmem hid, htc]
                  exact ⟨fun _ => hok1, fun h => Bool.noConfusion h⟩
                · exact absurd (h1 task htmem htid) (by rw [htc]; simp)
              | some gp =>
                obtain ⟨F2, P2, FX2, _⟩ :=
                  ih (setCompleted s pid false none) pid hs1n hs1r hdpid
                have hred : handleParentChildCompletion now (fuel + 1) s y
                    = handleParentChildCompletion now fuel
                        (setCompleted s pid false none) pid := by
                  rw [handle_succ, hfind]; dsimp only; rw [htp]
                  dsimp only
                  rw [htc, if_neg (by simp), hpfind]
                  dsimp only
                  rw [if_pos hpc, hppv]
                  rfl
                rw [hred]
                refine ⟨propFrame_trans hframe1 F2, ?_, ?_, fun h1 _ => ?_⟩
                · intro q hq
                  by_cases hqp : q = pid
                  · rw [hqp]; exact P2 pid hok1
                  · by_cases hqgp : q = gp
                    · -- grandparent: recomputed by the recursive call
                      have hyrow2 : flagWrite pid false none parent
                          ∈ setCompleted s pid false none :=
                        List.mem_map_of_mem _ hpmem2
                      have hid2 : (flagWrite pid false none parent).id = pid := by
                        rw [flagWrite_id, hpid2]
                      have hpar2 : (flagWrite pid false none parent).parent_id = some gp := by
                        rw [flagWrite_parent, hppv]
                      have hcmpl2 : (flagWrite pid false none parent).completed = false := by
                        rw [flagWrite_of_eq hpid2]
                      rw [hqgp]
                      exact (FX2 _ hyrow2 hid2 gp hpar2).1 hcmpl2
                    · refine P2 q (okAt_setCompleted_of_not_child hq hqp ?_)
                      refine hnotchild q ?_
                      rw [hppv]
                      intro h
                      cases h
                      exact hqgp rfl
                · intro yrow hmem hid p hp
                  rw [hyrow_is_task yrow hmem hid, htp] at hp
                  cases hp
                  rw [hyrow_is_task yrow hmem hid, htc]
                  exact ⟨fun _ => P2 pid hok1, fun h => Bool.noConfusion h⟩
                · exact absurd (h1 task htmem htid) (by rw [htc]; simp)
            · -- parent already incomplete: stop
              have hred : handleParentChildCompletion now (fuel + 1) s y = s := by
                rw [handle_succ, hfind]; dsimp only; rw [htp]
                dsimp only
                rw [htc, if_neg (by simp), hpfind]
                dsimp only
                rw [if_neg hpc]
              rw [hred]
              refine ⟨propFrame_refl s, fun q hq => hq, ?_, fun _ h2 => h2⟩
              intro yrow hmem hid p hp
              rw [hyrow_is_task yrow hmem hid, htp] at hp
              cases hp
              rw [hyrow_is_task yrow hmem hid, htc]
              refine ⟨fun _ => ?_, fun h => Bool.noConfusion h⟩
              intro prow hpm hpidq _
              have hprow : prow = parent := row_unique hn hpm hpmem2 (by rw [hpidq, hpid2])
              rw [hprow]
              constructor
              · intro habs
                exact absurd habs hpc
              · intro hallc
                have := hallc task htaskchild
                rw [htc] at this
                cases this

/-! Operation-level consequences for the completion invariant. -/

theorem forall₂_mem_left_general {α β : Type} {R : α → β → Prop}
    {s : List α} {r : List β} (h : List.Forall₂ R s r) {t : α} (ht : t ∈ s) :
    ∃ u ∈ r, R t u := by
  induction h with
  | nil => cases ht
  | cons hr _ ih =>
    rcases List.mem_cons.1 ht with rfl | ht2
    · exact ⟨_, List.mem_cons_self _ _, hr⟩
    · obtain ⟨u, hu, hru⟩ := ih ht2
      exact ⟨u, List.mem_cons_of_mem _ hu, hru⟩

theorem propFrame_childless {s r : List DatabaseTask} (h : PropFrame s r)
    (hn : NodupIds s) :
    ∀ t ∈ s, childRows s t.id = [] → ∀ u ∈ r, u.id = t.id → u = t := by
  intro t ht hcl u hu hid
  obtain ⟨u0, hu0, hcore, hfix⟩ := forall₂_mem_left_general h ht
  have hnr : NodupIds r := structEq_nodupIds (propFrame_structEq h) hn
  have hu0t : u0 = t := hfix hcl
  rw [← hu0t]
  exact row_unique hnr hu hu0 (by rw [hid]; exact hcore.1)

theorem toggleWrite_core (now i : String) (t : DatabaseTask) :
    coreEq t (toggleWrite now i t) := by
  unfold toggleWrite
  split <;> exact ⟨rfl, rfl, rfl, rfl, rfl, rfl⟩

theorem toggleWrite_of_ne {now i : String} {t : DatabaseTask} (h : t.id ≠ i) :
    toggleWrite now i t = t := by
  unfold toggleWrite
  rw [if_neg (by simpa using h)]

theorem toggleWrite_of_eq {now i : String} {t : DatabaseTask} (h : t.id = i) :
    toggleWrite now i t =
      { t with completed := !t.completed,
               completed_at := if t.completed then none else some now } := by
  unfold toggleWrite
  rw [if_pos (by simpa using h)]

theorem toggleWrite_structEq (now i : String) (db : List DatabaseTask) :
    StructEq db (db.map (toggleWrite now i)) := by
  unfold StructEq
  rw [List.forall₂_map_right_iff]
  exact List.forall₂_same.mpr fun t _ => toggleWrite_core now i t

theorem childRows_map_toggleWrite (db : List DatabaseTask) (now i q : String) :
    childRows (db.map (toggleWrite now i)) q
      = (childRows db q).map (toggleWrite now i) := by
  unfold childRows
  rw [List.filter_map]
  congr 1
  apply List.filter_congr
  intro t _
  simp [Function.comp, (toggleWrite_core now i t).2.2.1.symm]

theorem findTask_map_toggleWrite (db : List DatabaseTask) (now i q : String) :
    findTask (db.map (toggleWrite now i)) q
      = (findTask db q).map (toggleWrite now i) := by
  unfold findTask
  rw [List.find?_map]
  have hpred : ((fun t : DatabaseTask => t.id == q) ∘ toggleWrite now i)
      = (fun t : DatabaseTask => t.id == q) := by
    funext t
    simp [Function.comp, (toggleWrite_core now i t).1.symm]
  rw [hpred]

theorem i3_okAt_all {db : List DatabaseTask} (h : I3 db) : ∀ q, OkAt db q := by
  intro q prow hmem hid hne
  have := h prow hmem prow hmem rfl (by rwa [hid])
  rw [hid] at this
  exact this

/-- After `toggleTask x`, completion consistency holds at every id other
than the toggled one (in particular at every ancestor of `x`), and rows
without children other than `x` itself are untouched. -/
theorem toggleTask_restores (now : String) (d : String → Nat) (fuel : Nat)
    (db : List DatabaseTask) (x : String)
    (hn : NodupIds db) (hr : RankOK d db) (hd : d x < fuel) (hI : I3 db) :
    (∀ q, q ≠ x → OkAt (toggleTask now fuel db x) q) ∧
    (∀ t ∈ db, childRows db t.id = [] → t.id ≠ x →
      ∀ u ∈ toggleTask now fuel db x, u.id = t.id → u = t) := by
  have hs1 : StructEq db (db.map (toggleWrite now x)) := toggleWrite_structEq now x db
  have hn1 : NodupIds (db.map (toggleWrite now x)) := structEq_nodupIds hs1 hn
  have hr1 : RankOK d (db.map (toggleWrite now x)) := structEq_rankOK hs1 hr
  obtain ⟨F2, P2, FX2, _⟩ := handle_spec now d fuel (db.map (toggleWrite now x)) x hn1 hr1 hd
  have hchildless : ∀ t ∈ db, childRows db t.id = [] → t.id ≠ x →
      ∀ u ∈ toggleTask now fuel db x, u.id = t.id → u = t := by
    intro t ht hcl htne u hu hid
    have ht1 : t ∈ db.map (toggleWrite now x) := by
      have := List.mem_map_of_mem (toggleWrite now x) ht
      rwa [toggleWrite_of_ne htne] at this
    have hcl1 : childRows (db.map (toggleWrite now x)) t.id = [] :=
      (structEq_childRows_nil_iff hs1 t.id).1 hcl
    exact propFrame_childless F2 hn1 t ht1 hcl1 u hu hid
  refine ⟨?_, hchildless⟩
  intro q hqx
  cases hfind : findTask db x with
  | none =>
    have hdb1 : db.map (toggleWrite now x) = db := by
      have : ∀ t ∈ db, toggleWrite now x t = t := by
        intro t ht
        exact toggleWrite_of_ne (findTask_eq_none_iff.1 hfind t ht)
      calc db.map (toggleWrite now x) = db.map id := List.map_congr_left this
        _ = db := List.map_id db
    apply P2
    rw [hdb1]
    exact i3_okAt_all hI q
  | some xrow =>
    obtain ⟨hxmem, hxid⟩ := of_findTask_eq_some hfind
    have hOk1 : ∀ q2, q2 ≠ x → xrow.parent_id ≠ some q2 →
        OkAt (db.map (toggleWrite now x)) q2 := by
      intro q2 hq2x hq2p
      have hnc : ∀ c0 ∈ childRows db q2, c0.id ≠ x := by
        intro c0 hc0 hcid
        have : c0 = xrow := row_unique hn (mem_childRows_iff.1 hc0).1 hxmem
          (by rw [hcid, hxid])
        rw [this] at hc0
        exact hq2p (mem_childRows_iff.1 hc0).2
      have hchild : childRows (db.map (toggleWrite now x)) q2 = childRows db q2 := by
        rw [childRows_map_toggleWrite]
        have : ∀ c0 ∈ childRows db q2, toggleWrite now x c0 = c0 := by
          intro c0 hc0
          exact toggleWrite_of_ne (hnc c0 hc0)
        calc (childRows db q2).map (toggleWrite now x)
            = (childRows db q2).map id := List.map_congr_left this
          _ = childRows db q2 := List.map_id _
      intro prow hmem hid hne
      obtain ⟨t2, ht2, rfl⟩ := List.mem_map.1 hmem
      rw [(toggleWrite_core now x t2).1.symm] at hid
      rw [toggleWrite_of_ne (by rw [hid]; exact hq2x)]
      rw [hchild] at hne ⊢
      exact i3_okAt_all hI q2 t2 ht2 hid hne
    cases hxp : xrow.parent_id with
    | none =>
      apply P2
      exact hOk1 q hqx (by rw [hxp]; intro h; cases h)
    | some p =>
      have hpx : p ≠ x := by
        have := hr xrow hxmem p hxp
        rw [hxid] at this
        intro h
        rw [h] at this
        omega
      by_cases hqp : q = p
      · -- q is the parent of the toggled task: fixed by propagation
        rw [hqp]
        have hflip : toggleWrite now x xrow ∈ db.map (toggleWrite now x) :=
          List.mem_map_of_mem _ hxmem
        have hfid : (toggleWrite now x xrow).id = x := by
          rw [(toggleWrite_core now x xrow).1.symm, hxid]
        have hfpar : (toggleWrite now x xrow).parent_id = some p := by
          rw [(toggleWrite_core now x xrow).2.2.1.symm, hxp]
        have hfc : (toggleWrite now x xrow).completed = !xrow.completed := by
          rw [toggleWrite_of_eq hxid]
        cases hxc : xrow.completed with
        | true =>
          -- the toggle turned x off
          refine (FX2 _ hflip hfid p hfpar).1 ?_
          rw [hfc, hxc]
          rfl
        | false =>
          -- the toggle turned x on: a completed parent would contradict I3
          refine (FX2 _ hflip hfid p hfpar).2 (by rw [hfc, hxc]; rfl) ?_
          intro prow2 hmem2 hid2 hcmpl2 c hc
          obtain ⟨t2, ht2, rfl⟩ := List.mem_map.1 hmem2
          rw [(toggleWrite_core now x t2).1.symm] at hid2
          have ht2x : t2.id ≠ x := by rw [hid2]; exact hpx
          rw [toggleWrite_of_ne ht2x] at hcmpl2
          have hxchild : xrow ∈ childRows db p := mem_childRows_iff.2 ⟨hxmem, hxp⟩
          have hne : childRows db p ≠ [] := List.ne_nil_of_mem hxchild
          have hallp := (i3_okAt_all hI p t2 ht2 hid2 hne).1 hcmpl2
          have := hallp xrow hxchild
          rw [hxc] at this
          cases this
      · apply P2
        refine hOk1 q hqx ?_
        rw [hxp]
        intro h
        cases h
        exact hqp rfl

theorem childRows_append (db l2 : List DatabaseTask) (q : String) :
    childRows (db ++ l2) q = childRows db q ++ childRows l2 q := by
  unfold childRows
  exact List.filter_append _ _

/-- After `createTask`, completion consistency holds everywhere (the only
group that changed gains an incomplete member, and propagation un-completes
the chain above it), and rows that had no children and do not become the new
parent are untouched. -/
theorem createTask_restores (id now : String) (d : String → Nat) (fuel : Nat)
    (db : List DatabaseTask) (nm : String) (parentId : Option String)
    (date : Option String)
    (hn : NodupIds db) (hr : RankOK d db) (hI : I3 db)
    (hfresh : ∀ t ∈ db, t.id ≠ id)
    (hnoref : ∀ t ∈ db, t.parent_id ≠ some id)
    (hrankp : ∀ p, parentId = some p → d p < d id)
    (hd : d id < fuel) :
    I3 (createTask id now fuel db nm parentId date).2 ∧
    (∀ t ∈ db, childRows db t.id = [] → (∀ p, parentId = some p → t.id ≠ p) →
      ∀ u ∈ (createTask id now fuel db nm parentId date).2, u.id = t.id → u = t) ∧
    findTask (createTask id now fuel db nm parentId date).2 id
      = some (createTask id now fuel db nm parentId date).1 := by
  set newrow : DatabaseTask :=
    { id := id, name := nm, parent_id := parentId, completed := false,
      completed_at := none, created_at := now,
      due_date := match date with | some dd => dd | none => now,
      task_order := maxOrderInGroup db parentId + 1 } with hnewrow
  have hn1 : NodupIds (db ++ [newrow]) := by
    unfold NodupIds at hn ⊢
    rw [List.map_append, List.nodup_append]
    refine ⟨hn, by simp, ?_⟩
    intro a ha hb
    simp only [List.map_cons, List.map_nil, List.mem_singleton] at hb
    obtain ⟨t, ht, rfl⟩ := List.mem_map.1 ha
    exact hfresh t ht hb
  have hr1 : RankOK d (db ++ [newrow]) := by
    intro t ht p hp
    rcases List.mem_append.1 ht with ht2 | ht2
    · exact hr t ht2 p hp
    · rw [List.mem_singleton.1 ht2] at hp ⊢
      exact hrankp p hp
  have hparid : parentId ≠ some id := by
    intro h
    have := hrankp id h
    omega
  have hchildid : childRows (db ++ [newrow]) id = [] := by
    rw [childRows_append]
    have h1 : childRows db id = [] := by
      unfold childRows
      rw [List.filter_eq_nil]
      intro t ht
      simpa using hnoref t ht
    have h2 : childRows [newrow] id = [] := by
      unfold childRows
      rw [List.filter_eq_nil]
      intro t ht
      rw [List.mem_singleton.1 ht]
      simpa using hparid
    rw [h1, h2]
    rfl
  have hchildRows_other : ∀ q, parentId ≠ some q →
      childRows (db ++ [newrow]) q = childRows db q := by
    intro q hq
    rw [childRows_append]
    have h2 : childRows [newrow] q = [] := by
      unfold childRows
      rw [List.filter_eq_nil]
      intro t ht
      rw [List.mem_singleton.1 ht]
      simpa using hq
    rw [h2, List.append_nil]
  have hOk1 : ∀ q, parentId ≠ some q → OkAt (db ++ [newrow]) q := by
    intro q hq
    by_cases hqid : q = id
    · rw [hqid]
      exact okAt_of_childRows_nil hchildid
    · intro prow hmem hid hne
      rcases List.mem_append.1 hmem with hmem2 | hmem2
      · rw [hchildRows_other q hq] at hne ⊢
        exact i3_okAt_all hI q prow hmem2 hid hne
      · rw [List.mem_singleton.1 hmem2] at hid
        have : q = id := by rw [← hid, hnewrow]
        exact absurd this hqid
  rcases hopt : parentId with _ | p
  · -- root-level creation: no propagation
    have hres : (createTask id now fuel db nm none date).2 = db ++ [newrow] := by
      rw [hnewrow, hopt]
      simp only [createTask]
    have hres1 : (createTask id now fuel db nm none date).1 = newrow := by
      rw [hnewrow, hopt]
      simp only [createTask]
    rw [hres, hres1]
    refine ⟨?_, ?_, ?_⟩
    · intro t ht
      apply hOk1
      rw [hopt]
      intro h
      cases h
    · intro t ht hcl _ u hu hid
      rcases List.mem_append.1 hu with hu2 | hu2
      · exact row_unique hn hu2 ht hid
      · rw [List.mem_singleton.1 hu2] at hid
        have : id = t.id := by rw [← hid, hnewrow]
        exact absurd this.symm (hfresh t ht)
    · exact findTask_eq_some_of_mem hn1 (List.mem_append_right db (by simp))
        (by rw [hnewrow])
  · -- parented creation: propagation runs from the new row
    have hres : (createTask id now fuel db nm (some p) date).2
        = handleParentChildCompletion now fuel (db ++ [newrow]) id := by
      rw [hnewrow, hopt]
      simp only [createTask]
    obtain ⟨F2, P2, FX2, _⟩ := handle_spec now d fuel (db ++ [newrow]) id hn1 hr1 hd
    have hnew1 : newrow ∈ db ++ [newrow] := List.mem_append_right db (by simp)
    have hnewid : newrow.id = id := by rw [hnewrow]
    have hnewpar : newrow.parent_id = some p := by rw [hnewrow]; exact hopt
    have hnewc : newrow.completed = false := by rw [hnewrow]
    have hres1 : (createTask id now fuel db nm (some p) date).1 = newrow := by
      rw [hnewrow, hopt]
      simp only [createTask]
    rw [hres, hres1]
    refine ⟨?_, ?_, ?_⟩
    · intro t ht
      by_cases hqp : t.id = p
      · rw [hqp]
        exact (FX2 newrow hnew1 hnewid p hnewpar).1 hnewc
      · apply P2
        apply hOk1
        rw [hopt]
        intro h
        cases h
        exact hqp rfl
    · intro t ht hcl hnp u hu hid
      have ht1 : t ∈ db ++ [newrow] := List.mem_append_left _ ht
      have hpcond : parentId ≠ some t.id := by
        rw [hopt]
        intro h
        cases h
        exact hnp t.id rfl rfl
      have hcl1 : childRows (db ++ [newrow]) t.id = [] := by
        rw [hchildRows_other t.id hpcond]
        exact hcl
      exact propFrame_childless F2 hn1 t ht1 hcl1 u hu hid
    · obtain ⟨u, hu, hcore⟩ := structEq_mem_left (propFrame_structEq F2) hnew1
      have hueq : u = newrow :=
        propFrame_childless F2 hn1 newrow hnew1 (by rw [hnewid]; exact hchildid)
          u hu hcore.1.symm
      rw [hueq] at hu
      exact findTask_eq_some_of_mem
        (structEq_nodupIds (propFrame_structEq F2) hn1) hu hnewid

/-! Deletion: cascade facts and restoration of the invariant. -/

theorem hitsDeleted_mono {db : List DatabaseTask} {ids : List String} :
    ∀ {n : Nat} {i : String}, hitsDeleted db ids n i = true →
      hitsDeleted db ids (n + 1) i = true := by
  intro n
  induction n with
  | zero =>
    intro i h
    unfold hitsDeleted at h ⊢
    rw [h]
    rfl
  | succ n ih =>
    intro i h
    unfold hitsDeleted at h ⊢
    rcases Bool.or_eq_true_iff.1 h with h1 | h2
    · rw [h1]; rfl
    · apply Bool.or_eq_true_iff.2
      right
      revert h2
      cases findTask db i with
      | none => exact fun h2 => h2
      | some t =>
        dsimp only
        cases t.parent_id with
        | none => exact fun h2 => h2
        | some p => exact fun h2 => ih h2

theorem mem_dedupFirst {l : List String} {x : String} :
    x ∈ dedupFirst l ↔ x ∈ l := by
  have haux : ∀ (l2 : List String) (acc : List String),
      (x ∈ l2.foldl (fun acc y => if acc.contains y then acc else acc ++ [y]) acc
        ↔ x ∈ acc ∨ x ∈ l2) := by
    intro l2
    induction l2 with
    | nil => intro acc; simp
    | cons y l2 ih =>
      intro acc
      rw [List.foldl_cons, ih]
      by_cases hy : acc.contains y = true
      · rw [if_pos hy]
        constructor
        · rintro (h | h)
          · exact Or.inl h
          · exact Or.inr (List.mem_cons_of_mem _ h)
        · rintro (h | h)
          · exact Or.inl h
          · rcases List.mem_cons.1 h with rfl | h2
            · exact Or.inl (by simpa using hy)
            · exact Or.inr h2
      · rw [if_neg hy]
        constructor
        · rintro (h | h)
          · rcases List.mem_append.1 h with h2 | h2
            · exact Or.inl h2
            · exact Or.inr (List.mem_cons.2 (Or.inl (List.mem_singleton.1 h2)))
          · exact Or.inr (List.mem_cons_of_mem _ h)
        · rintro (h | h)
          · exact Or.inl (List.mem_append_left _ h)
          · rcases List.mem_cons.1 h with rfl | h2
            · exact Or.inl (List.mem_append_right _ (by simp))
            · exact Or.inr h2
  unfold dedupFirst
  rw [haux l []]
  simp

theorem childRows_filter (db : List DatabaseTask) (f : DatabaseTask → Bool)
    (q : String) :
    childRows (db.filter f) q = (childRows db q).filter f := by
  unfold childRows
  rw [List.filter_filter, List.filter_filter]
  apply List.filter_congr
  intro t _
  rw [Bool.and_comm]

/-- Specification of one iteration of the delete loop: assuming no task is
completed above an incomplete child, the loop body restores consistency at
the processed parent, never breaks it elsewhere, preserves the
no-false-complete property and only rewrites completion flags of rows with
children. -/
theorem deleteRestoreParent_spec (now : String) (d : String → Nat)
    (fuel : Nat) (acc : List DatabaseTask) (pid : String)
    (hn : NodupIds acc) (hr : RankOK d acc) (hd : d pid < fuel)
    (hnfc : NoFalseComplete acc) :
    NoFalseComplete (deleteRestoreParent now fuel acc pid) ∧
    PropFrame acc (deleteRestoreParent now fuel acc pid) ∧
    OkAt (deleteRestoreParent now fuel acc pid) pid ∧
    (∀ q, OkAt acc q → OkAt (deleteRestoreParent now fuel acc pid) q) := by
  by_cases hempty : (getSubtasks acc pid).isEmpty = true
  · have hred : deleteRestoreParent now fuel acc pid = acc := by
      unfold deleteRestoreParent
      rw [if_pos hempty]
    rw [hred]
    exact ⟨hnfc, propFrame_refl acc,
      okAt_of_childRows_nil (getSubtasks_isEmpty_iff.1 hempty), fun q hq => hq⟩
  · have hchildne : childRows acc pid ≠ [] := by
      intro habs
      exact hempty (getSubtasks_isEmpty_iff.2 habs)
    by_cases hall : (getSubtasks acc pid).all (·.completed) = true
    · have hred : deleteRestoreParent now fuel acc pid
          = handleParentChildCompletion now fuel
              (setCompleted acc pid true (some now)) pid := by
        unfold deleteRestoreParent
        rw [if_neg hempty, if_pos hall]
      have hallc := getSubtasks_all_iff.1 hall
      have hok1 : OkAt (setCompleted acc pid true (some now)) pid :=
        okAt_setCompleted_true hallc
      have hframe1 : PropFrame acc (setCompleted acc pid true (some now)) :=
        propFrame_setCompleted hchildne
      have hs1 : StructEq acc (setCompleted acc pid true (some now)) :=
        setCompleted_structEq acc pid true (some now)
      have hn1 := structEq_nodupIds hs1 hn
      have hr1 := structEq_rankOK hs1 hr
      have hnfc1 : NoFalseComplete (setCompleted acc pid true (some now)) :=
        nfc_setCompleted_true hnfc hallc
      obtain ⟨F2, P2, FX2, N2⟩ :=
        handle_spec now d fuel (setCompleted acc pid true (some now)) pid hn1 hr1 hd
      have hpidtrue : ∀ yrow ∈ setCompleted acc pid true (some now),
          yrow.id = pid → yrow.completed = true := by
        intro yrow hmem hid
        obtain ⟨t2, ht2, rfl⟩ := List.mem_map.1 hmem
        rw [flagWrite_id] at hid
        rw [flagWrite_of_eq hid]
      rw [hred]
      refine ⟨N2 hpidtrue hnfc1, propFrame_trans hframe1 F2, P2 pid hok1, ?_⟩
      intro q hq
      by_cases hqp : q = pid
      · rw [hqp]; exact P2 pid hok1
      · cases hpfind : findTask acc pid with
        | none =>
          refine P2 q (okAt_setCompleted_of_not_child hq hqp ?_)
          intro c0 hc0 hcid
          exact findTask_eq_none_iff.1 hpfind c0 (mem_childRows_iff.1 hc0).1 hcid
        | some prow =>
          obtain ⟨hprmem, hprid⟩ := of_findTask_eq_some hpfind
          by_cases hqgp : prow.parent_id = some q
          · have hyrow2 : flagWrite pid true (some now) prow
                ∈ setCompleted acc pid true (some now) :=
              List.mem_map_of_mem _ hprmem
            have hid2 : (flagWrite pid true (some now) prow).id = pid := by
              rw [flagWrite_id, hprid]
            have hpar2 : (flagWrite pid true (some now) prow).parent_id = some q := by
              rw [flagWrite_parent, hqgp]
            have hcmpl2 : (flagWrite pid true (some now) prow).completed = true := by
              rw [flagWrite_of_eq hprid]
            exact (FX2 _ hyrow2 hid2 q hpar2).2 hcmpl2
              (nfc_gives_fix_precondition hnfc1)
          · refine P2 q (okAt_setCompleted_of_not_child hq hqp ?_)
            intro c0 hc0 hcid
            have : c0 = prow := row_unique hn (mem_childRows_iff.1 hc0).1
              hprmem (by rw [hcid, hprid])
            rw [this] at hc0
            exact hqgp ((mem_childRows_iff.1 hc0).2 ▸ rfl) |>.elim
    · have hred : deleteRestoreParent now fuel acc pid = acc := by
        unfold deleteRestoreParent
        rw [if_neg hempty, if_neg hall]
      rw [hred]
      refine ⟨hnfc, propFrame_refl acc, ?_, fun q hq => hq⟩
      obtain ⟨c0, hc0, hc0f⟩ : ∃ c ∈ childRows acc pid, c.completed = false := by
        apply not_all_completed
        intro h
        exact hall (getSubtasks_all_iff.2 h)
      intro prow hmem hid _
      constructor
      · intro hpc
        have := hnfc prow hmem hpc c0 (by rwa [hid])
        rw [hc0f] at this
        cases this
      · intro hallc
        have := hallc c0 hc0
        rw [hc0f] at this
        cases this

/-- Folding the delete loop over any worklist that covers every broken
parent restores the invariant everywhere. -/
theorem foldl_deleteRestoreParent (now : String) (d : String → Nat)
    (fuel : Nat) :
    ∀ (ps : List String) (acc : List DatabaseTask),
      NodupIds acc → RankOK d acc → NoFalseComplete acc →
      (∀ pid ∈ ps, d pid < fuel) →
      (∀ q, q ∈ ps ∨ OkAt acc q) →
      (∀ q, OkAt (ps.foldl (deleteRestoreParent now fuel) acc) q) ∧
      PropFrame acc (ps.foldl (deleteRestoreParent now fuel) acc) := by
  intro ps
  induction ps with
  | nil =>
    intro acc _ _ _ _ hinv
    refine ⟨?_, propFrame_refl acc⟩
    intro q
    rcases hinv q with h | h
    · cases h
    · exact h
  | cons pid ps ih =>
    intro acc hn hr hnfc hbound hinv
    obtain ⟨N1, F1, O1, P1⟩ := deleteRestoreParent_spec now d fuel acc pid hn hr
      (hbound pid (List.mem_cons_self _ _)) hnfc
    have hs1 := propFrame_structEq F1
    rw [List.foldl_cons]
    refine ih (deleteRestoreParent now fuel acc pid)
      (structEq_nodupIds hs1 hn) (structEq_rankOK hs1 hr) N1
      (fun p hp => hbound p (List.mem_cons_of_mem _ hp)) ?_
      |>.imp id (propFrame_trans F1)
    intro q
    rcases hinv q with h | h
    · rcases List.mem_cons.1 h with rfl | h2
      · exact Or.inr O1
      · exact Or.inl h2
    · exact Or.inr (P1 q h)

/-- After `deleteTasks`, completion consistency holds everywhere, and
surviving rows left without children are not touched by the propagation. -/
theorem deleteTasks_restores (now : String) (d : String → Nat) (fuel : Nat)
    (db : List DatabaseTask) (taskIds : List String)
    (hn : NodupIds db) (hr : RankOK d db) (hI : I3 db)
    (hb : ∀ t ∈ db, d t.id < fuel) :
    I3 (deleteTasks now fuel db taskIds) ∧
    (∀ t ∈ db, hitsDeleted db taskIds fuel t.id = false →
      childRows (deleteTasks now fuel db taskIds) t.id = [] →
      ∀ u ∈ deleteTasks now fuel db taskIds, u.id = t.id → u = t) := by
  by_cases h1 : taskIds.isEmpty = true
  · have hred : deleteTasks now fuel db taskIds = db := by
      unfold deleteTasks
      rw [if_pos h1]
    rw [hred]
    exact ⟨hI, fun t ht _ _ u hu hid => row_unique hn hu ht hid⟩
  · by_cases h2 : (db.filter (fun t => taskIds.contains t.id)).isEmpty = true
    · have hred : deleteTasks now fuel db taskIds = db := by
        unfold deleteTasks
        rw [if_neg h1, if_pos h2]
      rw [hred]
      exact ⟨hI, fun t ht _ _ u hu hid => row_unique hn hu ht hid⟩
    · have hred : deleteTasks now fuel db taskIds
          = (dedupFirst ((db.filter (fun t => taskIds.contains t.id)).filterMap
              (·.parent_id))).foldl (deleteRestoreParent now fuel)
              (db.filter (fun t => !(hitsDeleted db taskIds fuel t.id))) := by
        unfold deleteTasks
        rw [if_neg h1, if_neg h2]
      have hmem1 : ∀ t, t ∈ db.filter (fun t => !(hitsDeleted db taskIds fuel t.id))
          ↔ t ∈ db ∧ hitsDeleted db taskIds fuel t.id = false := by
        intro t
        rw [List.mem_filter]
        simp
      have hn1 : NodupIds (db.filter (fun t => !(hitsDeleted db taskIds fuel t.id))) := by
        unfold NodupIds at hn ⊢
        exact List.Nodup.sublist (List.Sublist.map _ (List.filter_sublist db)) hn
      have hr1 : RankOK d (db.filter (fun t => !(hitsDeleted db taskIds fuel t.id))) := by
        intro t ht p hp
        exact hr t ((hmem1 t).1 ht).1 p hp
      have hnfc1 : NoFalseComplete
          (db.filter (fun t => !(hitsDeleted db taskIds fuel t.id))) := by
        intro t ht hcompl c hc
        rw [childRows_filter] at hc
        have hc2 := (List.mem_filter.1 hc).1
        have ht2 := ((hmem1 t).1 ht).1
        have hne : childRows db t.id ≠ [] := List.ne_nil_of_mem hc2
        exact (i3_okAt_all hI t.id t ht2 rfl hne).1 hcompl c hc2
      have hinv : ∀ q, q ∈ dedupFirst ((db.filter (fun t => taskIds.contains t.id)).filterMap
          (·.parent_id)) ∨
          OkAt (db.filter (fun t => !(hitsDeleted db taskIds fuel t.id))) q := by
        intro q
        by_cases hqdel : hitsDeleted db taskIds fuel q = true
        · right
          intro prow hmem hid _
          have := ((hmem1 prow).1 hmem).2
          rw [hid, hqdel] at this
          cases this
        · by_cases hallsurv : ∀ c ∈ childRows db q,
              hitsDeleted db taskIds fuel c.id = false
          · right
            have hchild1 : childRows (db.filter
                (fun t => !(hitsDeleted db taskIds fuel t.id))) q = childRows db q := by
              rw [childRows_filter, List.filter_eq_self]
              intro c hc
              rw [hallsurv c hc]
              rfl
            intro prow hmem hid hne
            rw [hchild1] at hne ⊢
            exact i3_okAt_all hI q prow ((hmem1 prow).1 hmem).1 hid hne
          · left
            push_neg at hallsurv
            obtain ⟨c, hc, hcdel⟩ := hallsurv
            have hcdel2 : hitsDeleted db taskIds fuel c.id = true := by
              cases hx : hitsDeleted db taskIds fuel c.id with
              | true => rfl
              | false => exact absurd hx hcdel
            obtain ⟨hcmem, hcpar⟩ := mem_childRows_iff.1 hc
            have hcid : c.id ∈ taskIds := by
              cases fuel with
              | zero =>
                unfold hitsDeleted at hcdel2
                simpa using hcdel2
              | succ n =>
                unfold hitsDeleted at hcdel2
                rcases Bool.or_eq_true_iff.1 hcdel2 with hx | hx
                · simpa using hx
                · rw [findTask_eq_some_of_mem hn hcmem rfl] at hx
                  dsimp only at hx
                  rw [hcpar] at hx
                  exact absurd (hitsDeleted_mono hx) hqdel
            apply mem_dedupFirst.2
            apply List.mem_filterMap.2
            exact ⟨c, List.mem_filter.2 ⟨hcmem, by simpa using hcid⟩, hcpar⟩
      have hbound : ∀ pid ∈ dedupFirst ((db.filter (fun t => taskIds.contains t.id)).filterMap
          (·.parent_id)), d pid < fuel := by
        intro pid hpid
        obtain ⟨c, hc, hcpar⟩ := List.mem_filterMap.1 (mem_dedupFirst.1 hpid)
        have hcmem := (List.mem_filter.1 hc).1
        have := hr c hcmem pid hcpar
        have := hb c hcmem
        omega
      obtain ⟨hAll, hFrame⟩ := foldl_deleteRestoreParent now d fuel _ _ hn1 hr1 hnfc1
        hbound hinv
      rw [hred]
      refine ⟨fun t _ => hAll t.id, ?_⟩
      intro t ht hsurv hclr u hu hid
      have ht1 : t ∈ db.filter (fun t => !(hitsDeleted db taskIds fuel t.id)) :=
        (hmem1 t).2 ⟨ht, hsurv⟩
      have hcl1 : childRows (db.filter (fun t => !(hitsDeleted db taskIds fuel t.id)))
          t.id = [] :=
        (structEq_childRows_nil_iff (propFrame_structEq hFrame) t.id).2 hclr
      exact propFrame_childless hFrame hn1 t ht1 hcl1 u hu hid

/-! Move: reparenting facts and restoration of the invariant. -/

theorem moveWrite_id (np : Option String) (mo : Int) (ids : List String)
    (t : DatabaseTask) : (moveWrite np mo ids t).id = t.id := by
  unfold moveWrite
  split <;> rfl

theorem moveWrite_completed (np : Option String) (mo : Int) (ids : List String)
    (t : DatabaseTask) : (moveWrite np mo ids t).completed = t.completed := by
  unfold moveWrite
  split <;> rfl

theorem moveWrite_of_not_mem {np : Option String} {mo : Int}
    {ids : List String} {t : DatabaseTask} (h : t.id ∉ ids) :
    moveWrite np mo ids t = t := by
  unfold moveWrite
  rw [if_neg (by simpa using h)]

theorem moveWrite_of_mem {np : Option String} {mo : Int}
    {ids : List String} {t : DatabaseTask} (h : t.id ∈ ids) :
    moveWrite np mo ids t
      = { t with parent_id := np, task_order := mo + 1 + (ids.indexOf t.id : Int) } := by
  unfold moveWrite
  rw [if_pos (by simpa using h)]

theorem move_nodupIds {db : List DatabaseTask} (hn : NodupIds db)
    (np : Option String) (mo : Int) (ids : List String) :
    NodupIds (db.map (moveWrite np mo ids)) := by
  unfold NodupIds at hn ⊢
  rw [List.map_map]
  have : ((·.id) ∘ moveWrite np mo ids : DatabaseTask → String) = (·.id) := by
    funext t
    exact moveWrite_id np mo ids t
  rwa [this]

theorem childRows_move_untouched {db : List DatabaseTask}
    {np : Option String} {mo : Int} {ids : List String} {q : String}
    (hnp : np ≠ some q)
    (hno : ∀ c ∈ db, c.id ∈ ids → c.parent_id ≠ some q) :
    childRows (db.map (moveWrite np mo ids)) q = childRows db q := by
  unfold childRows
  rw [List.filter_map]
  have hpred : ∀ t ∈ db,
      (((fun t : DatabaseTask => t.parent_id == some q) ∘ moveWrite np mo ids) t)
        = (t.parent_id == some q) := by
    intro t ht
    simp only [Function.comp_apply]
    by_cases hm : t.id ∈ ids
    · rw [moveWrite_of_mem hm]
      have h1 : (np == some q) = false := by simpa using hnp
      have h2 : (t.parent_id == some q) = false := by simpa using hno t ht hm
      have h3 : ({ t with parent_id := np, task_order := mo + 1 + (ids.indexOf t.id : Int) } : DatabaseTask).parent_id = np := rfl
      rw [h3, h1, h2]
    · rw [moveWrite_of_not_mem hm]
  rw [List.filter_congr hpred]
  have hmemall : ∀ c ∈ db.filter (fun t : DatabaseTask => t.parent_id == some q),
      moveWrite np mo ids c = c := by
    intro c hc
    apply moveWrite_of_not_mem
    intro hm
    exact hno c (List.mem_filter.1 hc).1 hm (by simpa using (List.mem_filter.1 hc).2)
  calc (db.filter (fun t : DatabaseTask => t.parent_id == some q)).map (moveWrite np mo ids)
      = (db.filter (fun t : DatabaseTask => t.parent_id == some q)).map id :=
        List.map_congr_left hmemall
    _ = _ := List.map_id _

theorem okAt_move_untouched {db : List DatabaseTask}
    {np : Option String} {mo : Int} {ids : List String} {q : String}
    (hI : I3 db) (hnp : np ≠ some q)
    (hno : ∀ c ∈ db, c.id ∈ ids → c.parent_id ≠ some q) :
    OkAt (db.map (moveWrite np mo ids)) q := by
  have hchild : childRows (db.map (moveWrite np mo ids)) q
      = childRows db q := childRows_move_untouched hnp hno
  intro prow hmem hid hne
  obtain ⟨t, ht, rfl⟩ := List.mem_map.1 hmem
  rw [moveWrite_id] at hid
  rw [hchild] at hne ⊢
  have := i3_okAt_all hI q t ht hid hne
  rw [moveWrite_completed]
  exact this

/-- Folding `updateParentCompletionStatus` over a worklist that covers every
broken parent restores the invariant everywhere. -/
theorem foldl_upcs_spec (now : String) (d : String → Nat) (fuel : Nat) :
    ∀ (ps : List String) (acc : List DatabaseTask),
      NodupIds acc → RankOK d acc →
      (∀ pid ∈ ps, d pid < fuel) →
      (∀ q, q ∈ ps ∨ OkAt acc q) →
      (∀ q, OkAt (ps.foldl (updateParentCompletionStatus now fuel) acc) q) ∧
      PropFrame acc (ps.foldl (updateParentCompletionStatus now fuel) acc) := by
  intro ps
  induction ps with
  | nil =>
    intro acc _ _ _ hinv
    refine ⟨?_, propFrame_refl acc⟩
    intro q
    rcases hinv q with h | h
    · cases h
    · exact h
  | cons pid ps ih =>
    intro acc hn hr hbound hinv
    obtain ⟨F1, P1, O1⟩ := upcs_spec now d fuel acc pid hn hr
      (hbound pid (List.mem_cons_self _ _))
    have hs1 := propFrame_structEq F1
    rw [List.foldl_cons]
    refine ih (updateParentCompletionStatus now fuel acc pid)
      (structEq_nodupIds hs1 hn) (structEq_rankOK hs1 hr)
      (fun p hp => hbound p (List.mem_cons_of_mem _ hp)) ?_
      |>.imp id (propFrame_trans F1)
    intro q
    rcases hinv q with h | h
    · rcases List.mem_cons.1 h with rfl | h2
      · exact Or.inr O1
      · exact Or.inl h2
    · exact Or.inr (P1 q h)

/-- After a successful `moveTasksToParent` (acyclicity of the resulting
parent relation is the documented caller precondition, witnessed by the rank
hypotheses), completion consistency holds everywhere, and unmoved rows left
without children are not touched. -/
theorem moveTasksToParent_restores (now : String) (d : String → Nat)
    (fuel : Nat) (db : List DatabaseTask) (taskIds : List String)
    (newParentId : Option String)
    (hn : NodupIds db) (hr : RankOK d db) (hI : I3 db)
    (hb : ∀ t ∈ db, d t.id < fuel)
    (hcomp : ∀ np, newParentId = some np → ∀ t ∈ db, t.id ∈ taskIds → d np < d t.id) :
    ∀ r, moveTasksToParent now fuel db taskIds newParentId = .ok r →
      I3 r ∧
      (∀ t ∈ db, t.id ∉ taskIds → childRows r t.id = [] →
        ∀ u ∈ r, u.id = t.id → u = t) := by
  intro r hres
  by_cases h1 : taskIds.isEmpty = true
  · unfold moveTasksToParent at hres
    rw [if_pos h1] at hres
    injection hres with h
    subst h
    exact ⟨hI, fun t ht _ _ u hu hid => row_unique hn hu ht hid⟩
  · by_cases h2 : (db.filter (fun t => taskIds.contains t.id)).isEmpty = true
    · unfold moveTasksToParent at hres
      rw [if_neg h1, if_pos h2] at hres
      injection hres with h
      subst h
      exact ⟨hI, fun t ht _ _ u hu hid => row_unique hn hu ht hid⟩
    · by_cases h3 : (db.filter (fun t => taskIds.contains t.id)).length ≠ taskIds.length
      · unfold moveTasksToParent at hres
        rw [if_neg h1, if_neg h2, if_pos h3] at hres
        cases hres
      · have hnomove : ∀ q, q ∉ dedupFirst ((db.filter (fun t => taskIds.contains t.id)).filterMap
            (·.parent_id)) → ∀ c ∈ db, c.id ∈ taskIds → c.parent_id ≠ some q := by
          intro q hq c hc hcid hcpar
          apply hq
          apply mem_dedupFirst.2
          apply List.mem_filterMap.2
          exact ⟨c, List.mem_filter.2 ⟨hc, by simpa using hcid⟩, hcpar⟩
        have hbound : ∀ pid ∈ dedupFirst ((db.filter (fun t => taskIds.contains t.id)).filterMap
            (·.parent_id)), d pid < fuel := by
          intro pid hpid
          obtain ⟨c, hc, hcpar⟩ := List.mem_filterMap.1 (mem_dedupFirst.1 hpid)
          have hcmem := (List.mem_filter.1 hc).1
          have := hr c hcmem pid hcpar
          have := hb c hcmem
          omega
        obtain ⟨c0, hc0⟩ : ∃ c0, c0 ∈ db.filter (fun t => taskIds.contains t.id) := by
          cases hx : db.filter (fun t => taskIds.contains t.id) with
          | nil => exact absurd (by rw [hx]; rfl) h2
          | cons a l => exact ⟨a, List.mem_cons_self a l⟩
        have hc0mem := (List.mem_filter.1 hc0).1
        have hc0id : c0.id ∈ taskIds := by simpa using (List.mem_filter.1 hc0).2
        cases hnpv : newParentId with
        | none =>
          unfold moveTasksToParent at hres
          rw [if_neg h1, if_neg h2, if_neg h3, hnpv] at hres
          dsimp only at hres
          injection hres with h
          subst h
          have hn1 : NodupIds (db.map (moveWrite none (maxOrderInGroup db none) taskIds)) :=
            move_nodupIds hn none _ taskIds
          have hr1 : RankOK d (db.map (moveWrite none (maxOrderInGroup db none) taskIds)) := by
            intro u hu p hp
            obtain ⟨t, ht, rfl⟩ := List.mem_map.1 hu
            rw [moveWrite_id]
            by_cases hm : t.id ∈ taskIds
            · rw [moveWrite_of_mem hm] at hp
              cases hp
            · rw [moveWrite_of_not_mem hm] at hp
              exact hr t ht p hp
          have hinv : ∀ q, q ∈ dedupFirst ((db.filter (fun t => taskIds.contains t.id)).filterMap
              (·.parent_id)) ∨
              OkAt (db.map (moveWrite none (maxOrderInGroup db none) taskIds)) q := by
            intro q
            by_cases hq : q ∈ dedupFirst ((db.filter (fun t => taskIds.contains t.id)).filterMap
              (·.parent_id))
            · exact Or.inl hq
            · exact Or.inr (okAt_move_untouched hI (by intro h; cases h) (hnomove q hq))
          obtain ⟨hAll, hFrame⟩ := foldl_upcs_spec now d fuel _ _ hn1 hr1 hbound hinv
          refine ⟨fun t _ => hAll t.id, ?_⟩
          intro t ht htm hclr u hu hid
          have ht1 : t ∈ db.map (moveWrite none (maxOrderInGroup db none) taskIds) := by
            have := List.mem_map_of_mem (moveWrite none (maxOrderInGroup db none) taskIds) ht
            rwa [moveWrite_of_not_mem htm] at this
          have hcl1 := (structEq_childRows_nil_iff (propFrame_structEq hFrame) t.id).2 hclr
          exact propFrame_childless hFrame hn1 t ht1 hcl1 u hu hid
        | some np =>
          unfold moveTasksToParent at hres
          rw [if_neg h1, if_neg h2, if_neg h3, hnpv] at hres
          dsimp only at hres
          injection hres with h
          subst h
          have hfold : updateParentCompletionStatus now fuel
              ((dedupFirst ((db.filter (fun t => taskIds.contains t.id)).filterMap
                  (·.parent_id))).foldl (updateParentCompletionStatus now fuel)
                (db.map (moveWrite (some np) (maxOrderInGroup db (some np)) taskIds)))
              np
            = ((dedupFirst ((db.filter (fun t => taskIds.contains t.id)).filterMap
                  (·.parent_id))) ++ [np]).foldl (updateParentCompletionStatus now fuel)
                (db.map (moveWrite (some np) (maxOrderInGroup db (some np)) taskIds)) := by
            rw [List.foldl_append]
            rfl
          rw [hfold]
          have hn1 : NodupIds (db.map (moveWrite (some np) (maxOrderInGroup db (some np)) taskIds)) :=
            move_nodupIds hn (some np) _ taskIds
          have hr1 : RankOK d (db.map (moveWrite (some np) (maxOrderInGroup db (some np)) taskIds)) := by
            intro u hu p hp
            obtain ⟨t, ht, rfl⟩ := List.mem_map.1 hu
            rw [moveWrite_id]
            by_cases hm : t.id ∈ taskIds
            · rw [moveWrite_of_mem hm] at hp
              cases hp
              exact hcomp np hnpv t ht hm
            · rw [moveWrite_of_not_mem hm] at hp
              exact hr t ht p hp
          have hbound2 : ∀ pid ∈ (dedupFirst ((db.filter (fun t => taskIds.contains t.id)).filterMap
              (·.parent_id))) ++ [np], d pid < fuel := by
            intro pid hpid
            rcases List.mem_append.1 hpid with hx | hx
            · exact hbound pid hx
            · rw [List.mem_singleton.1 hx]
              have h1 := hcomp np hnpv c0 hc0mem hc0id
              have h2 := hb c0 hc0mem
              omega
          have hinv : ∀ q, q ∈ (dedupFirst ((db.filter (fun t => taskIds.contains t.id)).filterMap
              (·.parent_id))) ++ [np] ∨
              OkAt (db.map (moveWrite (some np) (maxOrderInGroup db (some np)) taskIds)) q := by
            intro q
            by_cases hq : q ∈ (dedupFirst ((db.filter (fun t => taskIds.contains t.id)).filterMap
              (·.parent_id))) ++ [np]
            · exact Or.inl hq
            · have hq1 : q ∉ dedupFirst ((db.filter (fun t => taskIds.contains t.id)).filterMap
                  (·.parent_id)) := fun h => hq (List.mem_append_left _ h)
              have hq2 : q ≠ np := by
                intro h
                exact hq (List.mem_append_right _ (by rw [h]; simp))
              refine Or.inr (okAt_move_untouched hI ?_ (hnomove q hq1))
              intro h
              cases h
              exact hq2 rfl
          obtain ⟨hAll, hFrame⟩ := foldl_upcs_spec now d fuel _ _ hn1 hr1 hbound2 hinv
          refine ⟨fun t _ => hAll t.id, ?_⟩
          intro t ht htm hclr u hu hid
          have ht1 : t ∈ db.map (moveWrite (some np) (maxOrderInGroup db (some np)) taskIds) := by
            have := List.mem_map_of_mem (moveWrite (some np) (maxOrderInGroup db (some np)) taskIds) ht
            rwa [moveWrite_of_not_mem htm] at this
          have hcl1 := (structEq_childRows_nil_iff (propFrame_structEq hFrame) t.id).2 hclr
          exact propFrame_childless hFrame hn1 t ht1 hcl1 u hu hid

/-! Termination of the propagation recursions: on a ranked (acyclic) forest
each recursive step moves to the parent, whose rank is strictly smaller, so
once the fuel exceeds the rank of the start the computation has reached its
limit. -/

theorem handle_stable (now : String) (d : String → Nat) :
    ∀ (fuel : Nat) (db : List DatabaseTask) (y : String),
      RankOK d db → d y < fuel →
      handleParentChildCompletion now fuel db y
        = handleParentChildCompletion now (fuel + 1) db y := by
  intro fuel
  induction fuel with
  | zero => intro db y _ hd; exact absurd hd (by omega)
  | succ fuel ih =>
    intro db y hr hd
    rw [handle_succ now fuel, handle_succ now (fuel + 1)]
    cases hfind : findTask db y with
    | none => rfl
    | some task =>
      obtain ⟨htmem, htid⟩ := of_findTask_eq_some hfind
      dsimp only
      cases htp : task.parent_id with
      | none => rfl
      | some pid =>
        have hdpid : d pid < fuel := by
          have := hr task htmem pid htp
          rw [htid] at this
          omega
        dsimp only
        cases htc : task.completed with
        | true =>
          by_cases hall : (getSubtasks db pid).all (·.completed) = true
          · rw [if_pos rfl, if_pos hall, if_pos rfl, if_pos hall]
            exact ih (setCompleted db pid true (some now)) pid
              (structEq_rankOK (setCompleted_structEq db pid true (some now)) hr) hdpid
          · rw [if_pos rfl, if_neg hall, if_pos rfl, if_neg hall]
        | false =>
          rw [if_neg (by simp), if_neg (by simp)]
          cases hpfind : findTask db pid with
          | none => rfl
          | some parent =>
            dsimp only
            by_cases hpc : parent.completed = true
            · rw [if_pos hpc, if_pos hpc]
              cases hpp : parent.parent_id.isSome with
              | true =>
                rw [if_pos rfl, if_pos rfl]
                exact ih (setCompleted db pid false none) pid
                  (structEq_rankOK (setCompleted_structEq db pid false none) hr) hdpid
              | false =>
                rw [if_neg (by simp), if_neg (by simp)]
            · rw [if_neg hpc, if_neg hpc]

theorem upcs_stable (now : String) (d : String → Nat) :
    ∀ (fuel : Nat) (db : List DatabaseTask) (pid : String),
      RankOK d db → d pid < fuel →
      updateParentCompletionStatus now fuel db pid
        = updateParentCompletionStatus now (fuel + 1) db pid := by
  intro fuel
  induction fuel with
  | zero => intro db pid _ hd; exact absurd hd (by omega)
  | succ fuel ih =>
    intro db pid hr hd
    rw [upcs_succ now fuel, upcs_succ now (fuel + 1)]
    by_cases hempty : (getSubtasks db pid).isEmpty = true
    · rw [if_pos hempty, if_pos hempty]
    · rw [if_neg hempty, if_neg hempty]
      cases hpfind : findTask db pid with
      | none => rfl
      | some parent =>
        obtain ⟨hpmem, hpid⟩ := of_findTask_eq_some hpfind
        dsimp only
        have hdpp : ∀ pp, parent.parent_id = some pp → d pp < fuel := by
          intro pp hpp
          have := hr parent hpmem pp hpp
          rw [hpid] at this
          omega
        by_cases hcond1 : ((getSubtasks db pid).all (·.completed) && !parent.completed) = true
        · rw [if_pos hcond1, if_pos hcond1]
          cases hpp : parent.parent_id with
          | none => rfl
          | some pp =>
            exact ih (setCompleted db pid true (some now)) pp
              (structEq_rankOK (setCompleted_structEq db pid true (some now)) hr)
              (hdpp pp hpp)
        · rw [if_neg hcond1, if_neg hcond1]
          by_cases hcond2 : (!((getSubtasks db pid).all (·.completed)) && parent.completed) = true
          · rw [if_pos hcond2, if_pos hcond2]
            cases hpp : parent.parent_id with
            | none => rfl
            | some pp =>
              exact ih (setCompleted db pid false none) pp
                (structEq_rankOK (setCompleted_structEq db pid false none) hr)
                (hdpp pp hpp)
          · rw [if_neg hcond2, if_neg hcond2]

/-! Reordering: the rewritten group reads back in exactly the requested
sequence. -/

theorem indexOf_map_self {l : List String} (h : l.Nodup) :
    l.map (fun i => l.indexOf i) = List.range l.length := by
  apply List.ext_getElem
  · simp
  · intro k h1 h2
    have hk : k < l.length := by simpa using h2
    simp only [List.getElem_map, List.getElem_range]
    have hmem : l[k] ∈ l := List.getElem_mem _
    have hlt : l.indexOf l[k] < l.length := List.indexOf_lt_length.2 hmem
    exact (h.getElem_inj_iff).1 (List.getElem_indexOf hlt)

theorem reorder_group (db : List DatabaseTask) (taskIds : List String)
    (pid : Option String)
    (hmemall : ∀ t ∈ db.filter (fun t => t.parent_id == pid), t.id ∈ taskIds)
    (hne : ¬taskIds.isEmpty = true) :
    (reorderTasks db taskIds pid).filter (fun t => t.parent_id == pid)
      = (db.filter (fun t => t.parent_id == pid)).map
          (fun t => { t with task_order := (taskIds.indexOf t.id : Int) }) := by
  unfold reorderTasks
  rw [if_neg hne, List.filter_map]
  have hw : ∀ t ∈ db,
      ((fun t : DatabaseTask => t.parent_id == pid) ∘ (fun t =>
        if taskIds.contains t.id && t.parent_id == pid then
          { t with task_order := (taskIds.indexOf t.id : Int) }
        else t)) t
      = (t.parent_id == pid) := by
    intro t _
    simp only [Function.comp_apply]
    split <;> rfl
  rw [List.filter_congr hw]
  apply List.map_congr_left
  intro t ht
  have h1 : taskIds.contains t.id = true := by simpa using hmemall t ht
  have h2 : (t.parent_id == pid) = true := (List.mem_filter.1 ht).2
  rw [if_pos (by rw [h1, h2]; rfl)]

theorem reorder_reads_back (db : List DatabaseTask) (taskIds : List String)
    (pid : Option String) (hids : taskIds.Nodup)
    (hperm : ((db.filter (fun t => t.parent_id == pid)).map (·.id)).Perm taskIds) :
    (((reorderTasks db taskIds pid).filter (fun t => t.parent_id == pid)).insertionSort
        orderLe).map (·.id) = taskIds ∧
    (((reorderTasks db taskIds pid).filter (fun t => t.parent_id == pid)).map
        (·.task_order)).Perm
      ((List.range taskIds.length).map (fun n : Nat => (n : Int))) ∧
    ((reorderTasks db taskIds pid).filter (fun t => t.parent_id == pid)).length
      = taskIds.length := by
  by_cases hne : taskIds.isEmpty = true
  · have hids0 : taskIds = [] := List.isEmpty_iff.1 hne
    have hg0 : db.filter (fun t => t.parent_id == pid) = [] := by
      have := hperm.length_eq
      rw [hids0, List.length_nil, List.length_map] at this
      exact List.length_eq_zero.1 this
    have hred : reorderTasks db taskIds pid = db := by
      unfold reorderTasks
      rw [if_pos hne]
    rw [hred, hg0, hids0]
    exact ⟨rfl, List.Perm.refl _, rfl⟩
  · have hmemall : ∀ t ∈ db.filter (fun t => t.parent_id == pid), t.id ∈ taskIds := by
      intro t ht
      exact hperm.mem_iff.1 (List.mem_map_of_mem (·.id) ht)
    have hgrp := reorder_group db taskIds pid hmemall hne
    have hid2 : ((reorderTasks db taskIds pid).filter
        (fun t => t.parent_id == pid)).map (·.id)
        = (db.filter (fun t => t.parent_id == pid)).map (·.id) := by
      rw [hgrp, List.map_map]
      rfl
    have horder : ((reorderTasks db taskIds pid).filter
        (fun t => t.parent_id == pid)).map (·.task_order)
        = ((db.filter (fun t => t.parent_id == pid)).map (·.id)).map
            (fun i => (taskIds.indexOf i : Int)) := by
      rw [hgrp, List.map_map, List.map_map]
      rfl
    have hperm2 : (((reorderTasks db taskIds pid).filter
        (fun t => t.parent_id == pid)).map (·.task_order)).Perm
        ((List.range taskIds.length).map (fun n : Nat => (n : Int))) := by
      rw [horder]
      have h3 := hperm.map (fun i => (taskIds.indexOf i : Int))
      have h4 : taskIds.map (fun i => (taskIds.indexOf i : Int))
          = (List.range taskIds.length).map (fun n : Nat => (n : Int)) := by
        have h5 := congrArg (List.map (fun n : Nat => (n : Int))) (indexOf_map_self hids)
        rw [List.map_map] at h5
        exact h5
      rw [h4] at h3
      exact h3
    have hlen : ((reorderTasks db taskIds pid).filter
        (fun t => t.parent_id == pid)).length = taskIds.length := by
      have h5 := congrArg List.length hid2
      rw [List.length_map, List.length_map] at h5
      have h6 := hperm.length_eq
      rw [List.length_map] at h6
      rw [h5, h6]
    refine ⟨?_, hperm2, hlen⟩
    have hsorted := List.sorted_insertionSort orderLe
      ((reorderTasks db taskIds pid).filter (fun t => t.parent_id == pid))
    have hsp := List.perm_insertionSort orderLe
      ((reorderTasks db taskIds pid).filter (fun t => t.parent_id == pid))
    have hords : (((reorderTasks db taskIds pid).filter
        (fun t => t.parent_id == pid)).insertionSort orderLe).map (·.task_order)
        = (List.range taskIds.length).map (fun n : Nat => (n : Int)) := by
      apply @List.eq_of_perm_of_sorted Int (fun a b : Int => a ≤ b) _ _ _
        ((hsp.map (·.task_order)).trans hperm2)
      · exact List.Pairwise.map (fun t : DatabaseTask => t.task_order)
          (fun a b h => h) hsorted
      · exact List.Pairwise.map (fun n : Nat => (n : Int))
          (fun a b h => Int.ofNat_le.2 (Nat.le_of_lt h)) (List.pairwise_lt_range _)
    apply List.ext_getElem
    · rw [List.length_map, (hsp.length_eq), hlen]
    · intro k h1 h2
      have hk : k < (((reorderTasks db taskIds pid).filter
          (fun t => t.parent_id == pid)).insertionSort orderLe).length := by
        rw [List.length_map] at h1
        exact h1
      have hk3 : k < ((((reorderTasks db taskIds pid).filter
          (fun t => t.parent_id == pid)).insertionSort orderLe).map
            (fun t : DatabaseTask => t.task_order)).length := by
        simpa using hk
      have hk4 : k < ((List.range taskIds.length).map
          (fun n : Nat => (n : Int))).length := by
        simp only [List.length_map, List.length_range]
        exact h2
      have hkord : (((reorderTasks db taskIds pid).filter
          (fun t => t.parent_id == pid)).insertionSort orderLe)[k].task_order
          = (k : Int) := by
        have h6 : ((((reorderTasks db taskIds pid).filter
            (fun t => t.parent_id == pid)).insertionSort orderLe).map
              (fun t : DatabaseTask => t.task_order)).get ⟨k, hk3⟩
            = (((List.range taskIds.length).map
                (fun n : Nat => (n : Int)))).get ⟨k, hk4⟩ := by
          apply List.get_of_eq hords
        rw [List.get_eq_getElem, List.get_eq_getElem] at h6
        rw [List.getElem_map, List.getElem_map, List.getElem_range] at h6
        exact h6
      rw [List.getElem_map]
      set x := (((reorderTasks db taskIds pid).filter
          (fun t => t.parent_id == pid)).insertionSort orderLe)[k] with hxdef
      have hmem2 : x ∈ (reorderTasks db taskIds pid).filter
          (fun t => t.parent_id == pid) := by
        rw [hxdef]
        exact hsp.mem_iff.1 (List.getElem_mem _)
      rw [hgrp] at hmem2
      obtain ⟨t0, ht0, heq⟩ := List.mem_map.1 hmem2
      have hidmem : x.id ∈ taskIds := by
        rw [← heq]
        exact hmemall t0 ht0
      have hkidx : taskIds.indexOf x.id = k := by
        have h7 : x.task_order = (taskIds.indexOf x.id : Int) := by
          rw [← heq]
        rw [hkord] at h7
        exact_mod_cast h7.symm
      have hlt : taskIds.indexOf x.id < taskIds.length :=
        List.indexOf_lt_length.2 hidmem
      have h8 := List.getElem_indexOf hlt
      simp only [hkidx] at h8
      exact h8.symm

/-! Claim theorems. -/

/-- C1: for every task with at least one direct child, immediately after any
create, toggle, delete or move operation, the task is completed iff every
direct child is completed (`OkAt`/`I3`); for toggle this holds at every id
other than the toggled task itself (in particular at every ancestor of the
changed task up to the root), and for create, delete and successful move it
holds everywhere; in each case a task without children (and not itself the
target of the operation) has its row — its completion flag included — left
unchanged by the propagation.  The acyclicity of the parent relation
(invariant I1) enters as a rank function `d`, and `fuel` dominating the
ranks drives the recursion to its limit. -/
theorem C1_completion_consistency (now : String) (d : String → Nat)
    (fuel : Nat) (db : List DatabaseTask)
    (hn : NodupIds db) (hr : RankOK d db) (hI : I3 db) :
    (∀ x, d x < fuel →
      (∀ q, q ≠ x → OkAt (toggleTask now fuel db x) q) ∧
      (∀ t ∈ db, childRows db t.id = [] → t.id ≠ x →
        ∀ u ∈ toggleTask now fuel db x, u.id = t.id → u = t)) ∧
    (∀ id nm parentId date,
      (∀ t ∈ db, t.id ≠ id) → (∀ t ∈ db, t.parent_id ≠ some id) →
      (∀ p, parentId = some p → d p < d id) → d id < fuel →
      I3 (createTask id now fuel db nm parentId date).2 ∧
      (∀ t ∈ db, childRows db t.id = [] → (∀ p, parentId = some p → t.id ≠ p) →
        ∀ u ∈ (createTask id now fuel db nm parentId date).2, u.id = t.id → u = t)) ∧
    (∀ taskIds, (∀ t ∈ db, d t.id < fuel) →
      I3 (deleteTasks now fuel db taskIds) ∧
      (∀ t ∈ db, hitsDeleted db taskIds fuel t.id = false →
        childRows (deleteTasks now fuel db taskIds) t.id = [] →
        ∀ u ∈ deleteTasks now fuel db taskIds, u.id = t.id → u = t)) ∧
    (∀ taskIds newParentId r, (∀ t ∈ db, d t.id < fuel) →
      (∀ np, newParentId = some np → ∀ t ∈ db, t.id ∈ taskIds → d np < d t.id) →
      moveTasksToParent now fuel db taskIds newParentId = .ok r →
      I3 r ∧
      (∀ t ∈ db, t.id ∉ taskIds → childRows r t.id = [] →
        ∀ u ∈ r, u.id = t.id → u = t)) := by
  refine ⟨?_, ?_, ?_, ?_⟩
  · intro x hd
    exact toggleTask_restores now d fuel db x hn hr hd hI
  · intro id nm parentId date hfresh hnoref hrankp hd
    obtain ⟨h1, h2, _⟩ := createTask_restores id now d fuel db nm parentId date hn hr hI
      hfresh hnoref hrankp hd
    exact ⟨h1, h2⟩
  · intro taskIds hb
    exact deleteTasks_restores now d fuel db taskIds hn hr hI hb
  · intro taskIds newParentId r hb hcomp hres
    exact moveTasksToParent_restores now d fuel db taskIds newParentId
      hn hr hI hb hcomp r hres

theorem C1_completion_consistency_witness :
    OkAt (toggleTask "T1" 3
      [{ id := "a" }, { id := "ca", parent_id := some "a" }] "ca") "a" := by
  have h := C1_completion_consistency "T1" String.length 3
    [{ id := "a" }, { id := "ca", parent_id := some "a" }]
    (by unfold NodupIds; decide)
    (by
      intro t ht p hp
      rcases List.mem_cons.1 ht with rfl | ht2
      · cases hp
      · rcases List.mem_cons.1 ht2 with rfl | ht3
        · cases hp
          decide
        · cases ht3)
    (by unfold I3 OkAt; decide)
  exact (h.1 "ca" (by decide)).1 "a" (by decide)

/-- C8: under acyclicity of the parent relation (witnessed by a rank
function `d` that strictly decreases from a task to its parent, the formal
counterpart of recursion depth being bounded by the tree height), every
propagation recursion terminates: both `handleParentChildCompletion` and
`updateParentCompletionStatus`, whose recursive step moves strictly from a
task to its parent, have reached their limit as soon as the fuel exceeds the
rank of the starting task — additional fuel does not change the result. -/
theorem C8_propagation_terminates (now : String) (d : String → Nat)
    (db : List DatabaseTask) (hr : RankOK d db) :
    ∀ fuel y, d y < fuel →
      (handleParentChildCompletion now fuel db y
        = handleParentChildCompletion now (fuel + 1) db y) ∧
      (updateParentCompletionStatus now fuel db y
        = updateParentCompletionStatus now (fuel + 1) db y) :=
  fun fuel y hd =>
    ⟨handle_stable now d fuel db y hr hd, upcs_stable now d fuel db y hr hd⟩

theorem C8_propagation_terminates_witness :
    (handleParentChildCompletion "T1" 3
        [{ id := "a" }, { id := "ca", parent_id := some "a" }] "ca"
      = handleParentChildCompletion "T1" 4
        [{ id := "a" }, { id := "ca", parent_id := some "a" }] "ca") ∧
    (updateParentCompletionStatus "T1" 3
        [{ id := "a" }, { id := "ca", parent_id := some "a" }] "ca"
      = updateParentCompletionStatus "T1" 4
        [{ id := "a" }, { id := "ca", parent_id := some "a" }] "ca") := by
  have h := C8_propagation_terminates "T1" String.length
    [{ id := "a" }, { id := "ca", parent_id := some "a" }]
    (by
      intro t ht p hp
      rcases List.mem_cons.1 ht with rfl | ht2
      · cases hp
      · rcases List.mem_cons.1 ht2 with rfl | ht3
        · cases hp
          decide
        · cases ht3)
  exact h 3 "ca" (by decide)

theorem createTask_fst (id now : String) (fuel : Nat) (db : List DatabaseTask)
    (nm : String) (parentId : Option String) (date : Option String) :
    (createTask id now fuel db nm parentId date).1
      = { id := id, name := nm, parent_id := parentId, completed := false,
          completed_at := none, created_at := now,
          due_date := match date with | some dd => dd | none => now,
          task_order := maxOrderInGroup db parentId + 1 } := by
  cases parentId <;> rfl

/-- C7: `createTask` returns (and stores) a task whose order is one plus the
maximum existing order in the target parent group (so 0 for an empty group,
since the SQL COALESCE yields -1 there), which is not completed, has no
completion timestamp, and whose due date is the caller-supplied date or the
current time when none was supplied; under the freshness of the generated id
the stored row equals the returned one. -/
theorem C7_createTask_fields (id now : String) (d : String → Nat)
    (fuel : Nat) (db : List DatabaseTask) (nm : String)
    (parentId : Option String) (date : Option String)
    (hn : NodupIds db) (hr : RankOK d db) (hI : I3 db)
    (hfresh : ∀ t ∈ db, t.id ≠ id)
    (hnoref : ∀ t ∈ db, t.parent_id ≠ some id)
    (hrankp : ∀ p, parentId = some p → d p < d id)
    (hd : d id < fuel) :
    (createTask id now fuel db nm parentId date).1.task_order
      = maxOrderInGroup db parentId + 1 ∧
    (db.filter (fun t => t.parent_id == parentId) = [] →
      (createTask id now fuel db nm parentId date).1.task_order = 0) ∧
    (createTask id now fuel db nm parentId date).1.completed = false ∧
    (createTask id now fuel db nm parentId date).1.completed_at = none ∧
    (createTask id now fuel db nm parentId date).1.due_date
      = (match date with | some dd => dd | none => now) ∧
    findTask (createTask id now fuel db nm parentId date).2 id
      = some (createTask id now fuel db nm parentId date).1 := by
  obtain ⟨_, _, hfind⟩ := createTask_restores id now d fuel db nm parentId date
    hn hr hI hfresh hnoref hrankp hd
  rw [createTask_fst]
  refine ⟨rfl, ?_, rfl, rfl, rfl, ?_⟩
  · intro hempty
    unfold maxOrderInGroup
    rw [hempty]
    rfl
  · rw [← createTask_fst id now fuel db nm parentId date]
    exact hfind

theorem C7_createTask_fields_witness :
    (createTask "n1" "T1" 3 [{ id := "a", task_order := 4 }] "task" none none).1.task_order = 5 ∧
    (createTask "n1" "T1" 3 [{ id := "a", task_order := 4 }] "task" none none).1.completed = false := by
  have h := C7_createTask_fields "n1" "T1" String.length 3
    [{ id := "a", task_order := 4 }] "task" none none
    (by unfold NodupIds; decide)
    (by intro t ht p hp; rcases List.mem_cons.1 ht with rfl | ht2
        · cases hp
        · cases ht2)
    (by unfold I3 OkAt; decide)
    (by decide)
    (by decide)
    (by intro p hp; cases hp)
    (by decide)
  refine ⟨?_, h.2.2.1⟩
  rw [h.1]
  decide

/-- C10: `reorderTasks` rewrites the order field of exactly the rows whose
id is listed and whose current parent equals the given one (to the index of
the id in the list, the first CASE clause that matches); every other row —
including a listed id that currently belongs to a different parent group —
is left entirely unchanged. -/
theorem C10_reorder_frame (db : List DatabaseTask) (taskIds : List String)
    (parentId : Option String) :
    List.Forall₂ (fun t u =>
      (t.id ∈ taskIds → t.parent_id = parentId →
        u = { t with task_order := (taskIds.indexOf t.id : Int) }) ∧
      (t.id ∉ taskIds ∨ t.parent_id ≠ parentId → u = t))
      db (reorderTasks db taskIds parentId) := by
  by_cases hids : taskIds.isEmpty = true
  · have hred : reorderTasks db taskIds parentId = db := by
      unfold reorderTasks
      rw [if_pos hids]
    rw [hred]
    apply List.forall₂_same.mpr
    intro t _
    have hnil : taskIds = [] := List.isEmpty_iff.1 hids
    refine ⟨?_, fun _ => rfl⟩
    intro hm
    rw [hnil] at hm
    cases hm
  · have hred : reorderTasks db taskIds parentId
        = db.map (fun t =>
            if taskIds.contains t.id && t.parent_id == parentId then
              { t with task_order := (taskIds.indexOf t.id : Int) }
            else t) := by
      unfold reorderTasks
      rw [if_neg hids]
    rw [hred]
    rw [List.forall₂_map_right_iff]
    apply List.forall₂_same.mpr
    intro t _
    by_cases hc : (taskIds.contains t.id && t.parent_id == parentId) = true
    · rw [if_pos hc]
      rcases Bool.and_eq_true_iff.1 hc with ⟨h1, h2⟩
      refine ⟨fun _ _ => rfl, ?_⟩
      intro h
      rcases h with h | h
      · exact absurd (by simpa using h1) h
      · exact absurd (by simpa using h2) h
    · rw [if_neg hc]
      refine ⟨?_, fun _ => rfl⟩
      intro hm hp
      apply absurd hc
      simp only [not_not]
      apply Bool.and_eq_true_iff.2
      exact ⟨by simpa using hm, by simpa using hp⟩

theorem C10_reorder_frame_witness :
    List.Forall₂ (fun t u =>
      (t.id ∈ ["b", "x"] → t.parent_id = none →
        u = { t with task_order := ((["b", "x"] : List String).indexOf t.id : Int) }) ∧
      (t.id ∉ ["b", "x"] ∨ t.parent_id ≠ none → u = t))
      [{ id := "a" }, { id := "b", task_order := 1 },
        { id := "cb", parent_id := some "b" }]
      (reorderTasks
        [{ id := "a" }, { id := "b", task_order := 1 },
          { id := "cb", parent_id := some "b" }] ["b", "x"] none) :=
  C10_reorder_frame _ _ _

/-- C6: if `taskIds` is a duplicate-free complete ordering of the ids of the
parent group of `p`, then after `reorderTasks db taskIds (some p)` reading
the group back with `getSubtasks` (ORDER BY `task_order` ASC) yields the
rows in exactly the sequence `taskIds`, and every returned row carries
`task_order` equal to the index of its id in `taskIds` (P4 round trip). -/
theorem C6_reorder_roundtrip (db : List DatabaseTask) (taskIds : List String)
    (p : String) (hids : taskIds.Nodup)
    (hperm : ((childRows db p).map (·.id)).Perm taskIds) :
    (getSubtasks (reorderTasks db taskIds (some p)) p).map (·.id) = taskIds ∧
    ∀ t ∈ getSubtasks (reorderTasks db taskIds (some p)) p,
      t.task_order = (taskIds.indexOf t.id : Int) := by
  have h := reorder_reads_back db taskIds (some p) hids hperm
  refine ⟨h.1, ?_⟩
  intro t ht
  have hmem : t ∈ (reorderTasks db taskIds (some p)).filter
      (fun t => t.parent_id == some p) :=
    (List.perm_insertionSort orderLe _).mem_iff.1 ht
  by_cases hne : taskIds.isEmpty = true
  · have hids0 : taskIds = [] := List.isEmpty_iff.1 hne
    have hred : reorderTasks db taskIds (some p) = db := by
      unfold reorderTasks
      rw [if_pos hne]
    have hg0 : db.filter (fun t => t.parent_id == some p) = [] := by
      have hl := hperm.length_eq
      rw [hids0, List.length_nil, List.length_map] at hl
      exact List.length_eq_zero.1 hl
    rw [hred, hg0] at hmem
    cases hmem
  · have hmemall : ∀ u ∈ db.filter (fun t => t.parent_id == some p),
        u.id ∈ taskIds := by
      intro u hu
      exact hperm.mem_iff.1 (List.mem_map_of_mem (·.id) hu)
    have hgrp := reorder_group db taskIds (some p) hmemall hne
    rw [hgrp] at hmem
    obtain ⟨t0, ht0, heq⟩ := List.mem_map.1 hmem
    rw [← heq]

theorem C6_reorder_roundtrip_witness :
    ((([{ id := "p" }, { id := "a", parent_id := some "p" },
        { id := "b", parent_id := some "p", task_order := 1 }] :
          List DatabaseTask).filter
            (fun t => t.parent_id == some "p")).map (·.id)).Perm ["b", "a"] ∧
    ((getSubtasks (reorderTasks
        [{ id := "p" }, { id := "a", parent_id := some "p" },
         { id := "b", parent_id := some "p", task_order := 1 }]
        ["b", "a"] (some "p")) "p").map (·.id) = ["b", "a"] ∧
    ∀ t ∈ getSubtasks (reorderTasks
        [{ id := "p" }, { id := "a", parent_id := some "p" },
         { id := "b", parent_id := some "p", task_order := 1 }]
        ["b", "a"] (some "p")) "p",
      t.task_order = ((["b", "a"].indexOf t.id : Nat) : Int)) :=
  ⟨by decide, C6_reorder_roundtrip _ _ _ (by decide) (by decide)⟩

/-! C2 machinery: the propagation functions rewrite only completion flags
(unconditionally, no rank needed), so delete and move never renumber any
order value — they inherit gaps. -/

theorem structEq_setCompleted (db : List DatabaseTask) (i : String)
    (c : Bool) (a : Option String) : StructEq db (setCompleted db i c a) := by
  unfold StructEq setCompleted
  rw [List.forall₂_map_right_iff]
  apply List.forall₂_same.mpr
  intro t _
  unfold flagWrite
  split <;> exact ⟨rfl, rfl, rfl, rfl, rfl, rfl⟩

theorem upcs_structEq (now : String) :
    ∀ (fuel : Nat) (s : List DatabaseTask) (pid : String),
      StructEq s (updateParentCompletionStatus now fuel s pid) := by
  intro fuel
  induction fuel with
  | zero => intro s pid; exact structEq_refl s
  | succ fuel ih =>
    intro s pid
    rw [upcs_succ]
    by_cases hempty : (getSubtasks s pid).isEmpty = true
    · rw [if_pos hempty]
      exact structEq_refl s
    · rw [if_neg hempty]
      cases hfind : findTask s pid with
      | none => exact structEq_refl s
      | some parent =>
        dsimp only
        by_cases h1 : ((getSubtasks s pid).all (·.completed)
            && !parent.completed) = true
        · rw [if_pos h1]
          cases hpp : parent.parent_id with
          | some pp =>
            dsimp only
            exact structEq_trans (structEq_setCompleted s pid true (some now))
              (ih _ pp)
          | none => exact structEq_setCompleted s pid true (some now)
        · rw [if_neg h1]
          by_cases h2 : (!((getSubtasks s pid).all (·.completed))
              && parent.completed) = true
          · rw [if_pos h2]
            cases hpp : parent.parent_id with
            | some pp =>
              dsimp only
              exact structEq_trans (structEq_setCompleted s pid false none)
                (ih _ pp)
            | none => exact structEq_setCompleted s pid false none
          · rw [if_neg h2]
            exact structEq_refl s

theorem handle_structEq (now : String) :
    ∀ (fuel : Nat) (s : List DatabaseTask) (y : String),
      StructEq s (handleParentChildCompletion now fuel s y) := by
  intro fuel
  induction fuel with
  | zero => intro s y; exact structEq_refl s
  | succ fuel ih =>
    intro s y
    rw [handle_succ]
    cases hfind : findTask s y with
    | none => exact structEq_refl s
    | some task =>
      dsimp only
      cases htp : task.parent_id with
      | none => exact structEq_refl s
      | some pid =>
        dsimp only
        by_cases htc : task.completed = true
        · rw [if_pos htc]
          by_cases hall : (getSubtasks s pid).all (·.completed) = true
          · rw [if_pos hall]
            exact structEq_trans (structEq_setCompleted s pid true (some now))
              (ih _ pid)
          · rw [if_neg hall]
            exact structEq_refl s
        · rw [if_neg htc]
          cases hfp : findTask s pid with
          | none => exact structEq_refl s
          | some parent =>
            dsimp only
            by_cases hpc : parent.completed = true
            · rw [if_pos hpc]
              by_cases hppp : parent.parent_id.isSome = true
              · rw [if_pos hppp]
                exact structEq_trans (structEq_setCompleted s pid false none)
                  (ih _ pid)
              · rw [if_neg hppp]
                exact structEq_setCompleted s pid false none
            · rw [if_neg hpc]
              exact structEq_refl s

theorem deleteRestoreParent_coreFrame (now : String) (fuel : Nat)
    (db acc : List DatabaseTask) (pid : String)
    (h : ∀ u ∈ acc, ∃ t ∈ db, coreEq t u) :
    ∀ u ∈ deleteRestoreParent now fuel acc pid, ∃ t ∈ db, coreEq t u := by
  unfold deleteRestoreParent
  by_cases hempty : (getSubtasks acc pid).isEmpty = true
  · rw [if_pos hempty]
    exact h
  · rw [if_neg hempty]
    by_cases hall : (getSubtasks acc pid).all (·.completed) = true
    · rw [if_pos hall]
      have hse : StructEq acc (handleParentChildCompletion now fuel
          (setCompleted acc pid true (some now)) pid) :=
        structEq_trans (structEq_setCompleted acc pid true (some now))
          (handle_structEq now fuel _ pid)
      intro u hu
      obtain ⟨v, hv, hcv⟩ := structEq_mem_right hse hu
      obtain ⟨t, ht, hct⟩ := h v hv
      exact ⟨t, ht, coreEq_trans hct hcv⟩
    · rw [if_neg hall]
      exact h

theorem foldl_deleteRestoreParent_coreFrame (now : String) (fuel : Nat)
    (db : List DatabaseTask) :
    ∀ (ps : List String) (acc : List DatabaseTask),
      (∀ u ∈ acc, ∃ t ∈ db, coreEq t u) →
      ∀ u ∈ ps.foldl (deleteRestoreParent now fuel) acc,
        ∃ t ∈ db, coreEq t u := by
  intro ps
  induction ps with
  | nil => intro acc h; exact h
  | cons p ps ih =>
    intro acc h
    exact ih _ (deleteRestoreParent_coreFrame now fuel db acc p h)

theorem deleteTasks_coreFrame (now : String) (fuel : Nat)
    (db : List DatabaseTask) (taskIds : List String) :
    ∀ u ∈ deleteTasks now fuel db taskIds, ∃ t ∈ db, coreEq t u := by
  unfold deleteTasks
  by_cases h0 : taskIds.isEmpty = true
  · rw [if_pos h0]
    exact fun u hu => ⟨u, hu, coreEq_refl u⟩
  · rw [if_neg h0]
    by_cases h1 : (db.filter (fun t => taskIds.contains t.id)).isEmpty = true
    · rw [if_pos h1]
      exact fun u hu => ⟨u, hu, coreEq_refl u⟩
    · rw [if_neg h1]
      apply foldl_deleteRestoreParent_coreFrame
      intro u hu
      exact ⟨u, List.mem_of_mem_filter hu, coreEq_refl u⟩

theorem foldl_upcs_structEq (now : String) (fuel : Nat) :
    ∀ (ps : List String) (acc : List DatabaseTask),
      StructEq acc (ps.foldl (updateParentCompletionStatus now fuel) acc) := by
  intro ps
  induction ps with
  | nil => intro acc; exact structEq_refl acc
  | cons p ps ih =>
    intro acc
    exact structEq_trans (upcs_structEq now fuel acc p) (ih _)

theorem moveTasksToParent_coreFrame (now : String) (fuel : Nat)
    (db : List DatabaseTask) (taskIds : List String) (np : Option String)
    (r : List DatabaseTask)
    (h : moveTasksToParent now fuel db taskIds np = Except.ok r) :
    ∀ u ∈ r, ∃ t ∈ db,
      coreEq (moveWrite np (maxOrderInGroup db np) taskIds t) u := by
  unfold moveTasksToParent at h
  by_cases h0 : taskIds.isEmpty = true
  · rw [if_pos h0] at h
    injection h with h
    subst h
    intro u hu
    refine ⟨u, hu, ?_⟩
    have hids0 : taskIds = [] := List.isEmpty_iff.1 h0
    rw [hids0]
    exact coreEq_refl u
  · rw [if_neg h0] at h
    by_cases h1 : (db.filter (fun t => taskIds.contains t.id)).isEmpty = true
    · rw [if_pos h1] at h
      injection h with h
      subst h
      intro u hu
      refine ⟨u, hu, ?_⟩
      have hnomatch : taskIds.contains u.id = false := by
        by_contra habs
        have hmem : u ∈ db.filter (fun t => taskIds.contains t.id) :=
          List.mem_filter.2 ⟨hu, by simpa using habs⟩
        rw [List.isEmpty_iff.1 h1] at hmem
        cases hmem
      unfold moveWrite
      rw [hnomatch]
      exact coreEq_refl u
    · rw [if_neg h1] at h
      by_cases hlen : (db.filter (fun t => taskIds.contains t.id)).length
          = taskIds.length
      · rw [if_neg (fun hc => hc hlen)] at h
        have hbase : ∀ u ∈ db.map (moveWrite np (maxOrderInGroup db np) taskIds),
            ∃ t ∈ db, coreEq (moveWrite np (maxOrderInGroup db np) taskIds t) u := by
          intro u hu
          obtain ⟨t, ht, heq⟩ := List.mem_map.1 hu
          exact ⟨t, ht, heq ▸ coreEq_refl _⟩
        cases hnp : np with
        | some p =>
          rw [hnp] at h hbase
          injection h with h
          subst h
          intro u hu
          have hse : StructEq
              (db.map (moveWrite (some p) (maxOrderInGroup db (some p)) taskIds))
              (updateParentCompletionStatus now fuel
                ((dedupFirst ((db.filter (fun t => taskIds.contains t.id)).filterMap
                    (·.parent_id))).foldl
                  (updateParentCompletionStatus now fuel)
                  (db.map (moveWrite (some p) (maxOrderInGroup db (some p)) taskIds)))
                p) :=
            structEq_trans (foldl_upcs_structEq now fuel _ _)
              (upcs_structEq now fuel _ p)
          obtain ⟨v, hv, hcv⟩ := structEq_mem_right hse hu
          obtain ⟨t, ht, hct⟩ := hbase v hv
          exact ⟨t, ht, coreEq_trans hct hcv⟩
        | none =>
          rw [hnp] at h hbase
          injection h with h
          subst h
          intro u hu
          have hse : StructEq
              (db.map (moveWrite none (maxOrderInGroup db none) taskIds))
              ((dedupFirst ((db.filter (fun t => taskIds.contains t.id)).filterMap
                  (·.parent_id))).foldl
                (updateParentCompletionStatus now fuel)
                (db.map (moveWrite none (maxOrderInGroup db none) taskIds))) :=
            foldl_upcs_structEq now fuel _ _
          obtain ⟨v, hv, hcv⟩ := structEq_mem_right hse hu
          obtain ⟨t, ht, hct⟩ := hbase v hv
          exact ⟨t, ht, coreEq_trans hct hcv⟩
      · rw [if_pos hlen] at h
        cases h

/-- C2 (amended): only `reorderTasks` renumbers a group.  Given a complete
duplicate-free ordering of the group, reorder makes the order values exactly
`{0, ..., n-1}` (`ContiguousGroup`).  Delete and move, by contrast, never
rewrite the order of any surviving row: every row surviving a delete keeps
all non-completion fields of an original row (so the gaps of the removed
orders remain), and every row of a successful move result keeps the fields
of `moveWrite` of an original row (moved rows get `maxOrder + 1 + index`,
all other rows keep their old order; the old group is left with gaps).  The
claim as stated — contiguity after move and delete — is refuted by
`C2_delete_leaves_gap_counterexample`. -/
theorem C2_order_contiguity (db : List DatabaseTask) (taskIds : List String)
    (pid : Option String) (now : String) (fuel : Nat) (ids : List String)
    (np : Option String) (hids : taskIds.Nodup)
    (hperm : ((db.filter (fun t => t.parent_id == pid)).map (·.id)).Perm taskIds) :
    ContiguousGroup (reorderTasks db taskIds pid) pid ∧
    (∀ u ∈ deleteTasks now fuel db ids, ∃ t ∈ db, coreEq t u) ∧
    (∀ r, moveTasksToParent now fuel db ids np = Except.ok r →
      ∀ u ∈ r, ∃ t ∈ db,
        coreEq (moveWrite np (maxOrderInGroup db np) ids t) u) := by
  have h := reorder_reads_back db taskIds pid hids hperm
  refine ⟨?_, deleteTasks_coreFrame now fuel db ids,
    fun r hr => moveTasksToParent_coreFrame now fuel db ids np r hr⟩
  unfold ContiguousGroup
  rw [h.2.2]
  exact h.2.1

theorem C2_order_contiguity_witness :
    ((["b", "a"] : List String).Nodup ∧
      ((([{ id := "a" }, { id := "b", task_order := 1 },
          { id := "c", parent_id := some "a" }] : List DatabaseTask).filter
            (fun t => t.parent_id == none)).map (·.id)).Perm ["b", "a"]) ∧
    (ContiguousGroup (reorderTasks
        [{ id := "a" }, { id := "b", task_order := 1 },
         { id := "c", parent_id := some "a" }] ["b", "a"] none) none ∧
    (∀ u ∈ deleteTasks "T" 3
        [{ id := "a" }, { id := "b", task_order := 1 },
         { id := "c", parent_id := some "a" }] ["b"],
      ∃ t ∈ ([{ id := "a" }, { id := "b", task_order := 1 },
         { id := "c", parent_id := some "a" }] : List DatabaseTask), coreEq t u) ∧
    (∀ r, moveTasksToParent "T" 3
        [{ id := "a" }, { id := "b", task_order := 1 },
         { id := "c", parent_id := some "a" }] ["b"] (some "a")
          = Except.ok r →
      ∀ u ∈ r, ∃ t ∈ ([{ id := "a" }, { id := "b", task_order := 1 },
         { id := "c", parent_id := some "a" }] : List DatabaseTask),
        coreEq (moveWrite (some "a")
          (maxOrderInGroup [{ id := "a" }, { id := "b", task_order := 1 },
            { id := "c", parent_id := some "a" }] (some "a")) ["b"] t) u)) :=
  ⟨⟨by decide, by decide⟩,
    C2_order_contiguity _ _ none "T" 3 ["b"] (some "a") (by decide) (by decide)⟩

/-- C2 counterexample: deleting the middle task of a three-task root group
leaves order values `0` and `2` — not the contiguous set `{0, 1}` the claim
requires after a delete. -/
theorem C2_delete_leaves_gap_counterexample :
    ¬ ContiguousGroup (deleteTasks "T" 3
      [{ id := "a" }, { id := "b", task_order := 1 },
       { id := "c", task_order := 2 }] ["b"]) none := by
  unfold ContiguousGroup
  decide

/-! C3 machinery: the `DELETE ... OR parent_id IN ids` statement plus the
`ON DELETE CASCADE` clause remove exactly the rows whose ancestor chain hits
a requested id (`hitsDeleted`); with a rank function for acyclicity the walk
is stable once the fuel dominates the rank. -/

theorem hitsDeleted_zero (db : List DatabaseTask) (ids : List String)
    (i : String) : hitsDeleted db ids 0 i = ids.contains i := rfl

theorem hitsDeleted_succ (db : List DatabaseTask) (ids : List String)
    (n : Nat) (i : String) :
    hitsDeleted db ids (n + 1) i =
      (ids.contains i ||
        match findTask db i with
        | some t =>
          match t.parent_id with
          | some p => hitsDeleted db ids n p
          | none => false
        | none => false) := rfl

theorem hits_of_contains {db : List DatabaseTask} {ids : List String}
    {x : String} (h : ids.contains x = true) :
    ∀ n, hitsDeleted db ids n x = true := by
  intro n
  cases n with
  | zero => exact h
  | succ m =>
    rw [hitsDeleted_succ, h]
    rfl

theorem hits_child {db : List DatabaseTask} {ids : List String}
    (hn : NodupIds db) {u : DatabaseTask} {p : String}
    (hu : u ∈ db) (hp : u.parent_id = some p) {n : Nat}
    (h : hitsDeleted db ids n p = true) :
    hitsDeleted db ids (n + 1) u.id = true := by
  rw [hitsDeleted_succ, findTask_eq_some_of_mem hn hu rfl]
  dsimp only
  rw [hp]
  dsimp only
  rw [h]
  simp

theorem hits_stable {db : List DatabaseTask} {ids : List String}
    {d : String → Nat} (hr : RankOK d db) :
    ∀ (n : Nat) (i : String), d i ≤ n →
      hitsDeleted db ids (n + 1) i = hitsDeleted db ids n i := by
  intro n
  induction n with
  | zero =>
    intro i hdi
    rw [hitsDeleted_succ db ids 0 i, hitsDeleted_zero db ids i]
    cases hf : findTask db i with
    | none => exact Bool.or_false _
    | some t =>
      dsimp only
      cases hp : t.parent_id with
      | none => exact Bool.or_false _
      | some p =>
        obtain ⟨htm, hti⟩ := of_findTask_eq_some hf
        have hlt := hr t htm p hp
        rw [hti] at hlt
        exact absurd hlt (by omega)
  | succ n ih =>
    intro i hdi
    rw [hitsDeleted_succ db ids (n + 1) i, hitsDeleted_succ db ids n i]
    cases hf : findTask db i with
    | none => rfl
    | some t =>
      dsimp only
      cases hp : t.parent_id with
      | none => rfl
      | some p =>
        dsimp only
        obtain ⟨htm, hti⟩ := of_findTask_eq_some hf
        have hdp : d p ≤ n := by
          have hlt := hr t htm p hp
          rw [hti] at hlt
          omega
        rw [ih p hdp]

theorem desc_head {db : List DatabaseTask} {a x : String} (h : Desc db a x) :
    ∃ t ∈ db, t.parent_id = some a := by
  cases h with
  | child t a htm hp => exact ⟨t, htm, hp⟩
  | step t a x htm hp hd2 => exact ⟨t, htm, hp⟩

theorem hits_up {db : List DatabaseTask} {ids : List String}
    (hn : NodupIds db) {d : String → Nat} (hr : RankOK d db) :
    ∀ {a x : String}, Desc db a x →
      (∀ n, d a ≤ n → hitsDeleted db ids n a = true) →
      ∀ n, d x ≤ n → hitsDeleted db ids n x = true := by
  intro a x hdesc
  induction hdesc with
  | child t a htm hp =>
    intro ha n hdn
    have hlt : d a < d t.id := hr t htm a hp
    cases n with
    | zero => exact absurd hdn (by omega)
    | succ m =>
      apply hits_child hn htm hp
      exact ha m (by omega)
  | step t a x htm hp hdesc2 ih =>
    intro ha n hdn
    apply ih ?_ n hdn
    intro m hdm
    have hlt : d a < d t.id := hr t htm a hp
    cases m with
    | zero => exact absurd hdm (by omega)
    | succ k =>
      apply hits_child hn htm hp
      exact ha k (by omega)

theorem hits_of_desc {db : List DatabaseTask} {ids : List String}
    (hn : NodupIds db) {d : String → Nat} (hr : RankOK d db)
    {a x : String} (ha : ids.contains a = true) (hdesc : Desc db a x) :
    ∀ n, d x ≤ n → hitsDeleted db ids n x = true :=
  hits_up hn hr hdesc (fun n _ => hits_of_contains ha n)

theorem deleteRestoreParent_structEq (now : String) (fuel : Nat)
    (acc : List DatabaseTask) (pid : String) :
    StructEq acc (deleteRestoreParent now fuel acc pid) := by
  unfold deleteRestoreParent
  by_cases h1 : (getSubtasks acc pid).isEmpty = true
  · rw [if_pos h1]
    exact structEq_refl acc
  · rw [if_neg h1]
    by_cases h2 : (getSubtasks acc pid).all (·.completed) = true
    · rw [if_pos h2]
      exact structEq_trans (structEq_setCompleted acc pid true (some now))
        (handle_structEq now fuel _ pid)
    · rw [if_neg h2]
      exact structEq_refl acc

theorem foldl_deleteRestoreParent_structEq (now : String) (fuel : Nat) :
    ∀ (ps : List String) (acc : List DatabaseTask),
      StructEq acc (ps.foldl (deleteRestoreParent now fuel) acc) := by
  intro ps
  induction ps with
  | nil => intro acc; exact structEq_refl acc
  | cons p ps ih =>
    intro acc
    exact structEq_trans (deleteRestoreParent_structEq now fuel acc p) (ih _)

/-- C3: deleting a set of ids (the `DELETE ... WHERE id IN ids OR parent_id
IN ids` statement together with the `ON DELETE CASCADE` schema clause,
modelled by `hitsDeleted`) removes every requested row and every transitive
descendant of a requested id, and afterwards no surviving row references a
deleted id: a surviving parent pointer always has a surviving row with that
id.  Hypotheses: unique ids, a rank function for acyclicity (I1) with the
fuel above every rank, and referential integrity of `parent_id` (the
foreign key). -/
theorem C3_delete_cascade (now : String) (d : String → Nat) (fuel : Nat)
    (db : List DatabaseTask) (taskIds : List String)
    (hn : NodupIds db) (hr : RankOK d db) (hb : RankBound d fuel db)
    (hfk : ∀ t ∈ db, ∀ p, t.parent_id = some p → ∃ w ∈ db, w.id = p) :
    (∀ u ∈ deleteTasks now fuel db taskIds, taskIds.contains u.id = false) ∧
    (∀ u ∈ deleteTasks now fuel db taskIds,
      ∀ x, taskIds.contains x = true → ¬ Desc db x u.id) ∧
    (∀ u ∈ deleteTasks now fuel db taskIds, ∀ p, u.parent_id = some p →
      ∃ v ∈ deleteTasks now fuel db taskIds, v.id = p) := by
  by_cases h0 : taskIds.isEmpty = true
  · have hres : deleteTasks now fuel db taskIds = db := by
      unfold deleteTasks
      rw [if_pos h0]
    rw [hres]
    have hids0 : taskIds = [] := List.isEmpty_iff.1 h0
    subst hids0
    exact ⟨fun u _ => rfl, fun u _ x hx => by simp at hx,
      fun u hu p hp => hfk u hu p hp⟩
  · by_cases h1 : (db.filter (fun t => taskIds.contains t.id)).isEmpty = true
    · have hres : deleteTasks now fuel db taskIds = db := by
        unfold deleteTasks
        rw [if_neg h0, if_pos h1]
      rw [hres]
      have hnone : ∀ t ∈ db, taskIds.contains t.id = false := by
        intro t ht
        by_contra habs
        have hmem : t ∈ db.filter (fun t => taskIds.contains t.id) :=
          List.mem_filter.2 ⟨ht, by simpa using habs⟩
        rw [List.isEmpty_iff.1 h1] at hmem
        cases hmem
      refine ⟨fun u hu => hnone u hu, ?_, fun u hu p hp => hfk u hu p hp⟩
      intro u _ x hx hdesc
      obtain ⟨t, htm, hp⟩ := desc_head hdesc
      obtain ⟨w, hw, hwid⟩ := hfk t htm x hp
      have hwf := hnone w hw
      rw [hwid, hx] at hwf
      exact Bool.noConfusion hwf
    · have hres : deleteTasks now fuel db taskIds =
          (dedupFirst ((db.filter (fun t => taskIds.contains t.id)).filterMap
              (·.parent_id))).foldl
            (deleteRestoreParent now fuel)
            (db.filter (fun t => !(hitsDeleted db taskIds fuel t.id))) := by
        unfold deleteTasks
        rw [if_neg h0, if_neg h1]
      have hse : StructEq (db.filter (fun t => !(hitsDeleted db taskIds fuel t.id)))
          (deleteTasks now fuel db taskIds) := by
        rw [hres]
        exact foldl_deleteRestoreParent_structEq now fuel _ _
      have hsurv_mem : ∀ s ∈ db.filter (fun t => !(hitsDeleted db taskIds fuel t.id)),
          s ∈ db ∧ hitsDeleted db taskIds fuel s.id = false := by
        intro s hs
        have hs2 := List.mem_filter.1 hs
        exact ⟨hs2.1, by simpa using hs2.2⟩
      refine ⟨?_, ?_, ?_⟩
      · intro u hu
        obtain ⟨s, hsmem, hcs⟩ := structEq_mem_right hse hu
        obtain ⟨hsdb, hshits⟩ := hsurv_mem s hsmem
        by_contra habs
        have hcontains : taskIds.contains u.id = true := by simpa using habs
        have htrue : hitsDeleted db taskIds fuel u.id = true :=
          hits_of_contains hcontains fuel
        rw [← hcs.1] at htrue
        rw [hshits] at htrue
        exact Bool.noConfusion htrue
      · intro u hu x hx hdesc
        obtain ⟨s, hsmem, hcs⟩ := structEq_mem_right hse hu
        obtain ⟨hsdb, hshits⟩ := hsurv_mem s hsmem
        have htrue := hits_of_desc hn hr hx hdesc fuel ?_
        · rw [← hcs.1] at htrue
          rw [hshits] at htrue
          exact Bool.noConfusion htrue
        · rw [← hcs.1]
          exact le_of_lt (hb s hsdb)
      · intro u hu p hp
        obtain ⟨s, hsmem, hcs⟩ := structEq_mem_right hse hu
        obtain ⟨hsdb, hshits⟩ := hsurv_mem s hsmem
        have hsp : s.parent_id = some p := by
          rw [hcs.2.2.1]
          exact hp
        obtain ⟨w, hwdb, hwid⟩ := hfk s hsdb p hsp
        have hwhits : hitsDeleted db taskIds fuel w.id = false := by
          by_contra habs
          have hwtrue : hitsDeleted db taskIds fuel w.id = true := by
            simpa using habs
          rw [hwid] at hwtrue
          have hs1 : hitsDeleted db taskIds (fuel + 1) s.id = true :=
            hits_child hn hsdb hsp hwtrue
          rw [hits_stable hr fuel s.id (le_of_lt (hb s hsdb))] at hs1
          rw [hshits] at hs1
          exact Bool.noConfusion hs1
        have hwsurv : w ∈ db.filter (fun t => !(hitsDeleted db taskIds fuel t.id)) :=
          List.mem_filter.2 ⟨hwdb, by simpa using hwhits⟩
        obtain ⟨v, hv, hcv⟩ := structEq_mem_left hse hwsurv
        refine ⟨v, hv, ?_⟩
        rw [← hcv.1]
        exact hwid

theorem C3_delete_cascade_witness :
    NodupIds [{ id := "p" }, { id := "c", parent_id := some "p" },
      { id := "g", parent_id := some "c" }] ∧
    ((∀ u ∈ deleteTasks "T" 3
        [{ id := "p" }, { id := "c", parent_id := some "p" },
         { id := "g", parent_id := some "c" }] ["c"],
      (["c"] : List String).contains u.id = false) ∧
    (∀ u ∈ deleteTasks "T" 3
        [{ id := "p" }, { id := "c", parent_id := some "p" },
         { id := "g", parent_id := some "c" }] ["c"],
      ∀ x, (["c"] : List String).contains x = true →
        ¬ Desc [{ id := "p" }, { id := "c", parent_id := some "p" },
          { id := "g", parent_id := some "c" }] x u.id) ∧
    (∀ u ∈ deleteTasks "T" 3
        [{ id := "p" }, { id := "c", parent_id := some "p" },
         { id := "g", parent_id := some "c" }] ["c"],
      ∀ p, u.parent_id = some p →
        ∃ v ∈ deleteTasks "T" 3
          [{ id := "p" }, { id := "c", parent_id := some "p" },
           { id := "g", parent_id := some "c" }] ["c"], v.id = p)) :=
  ⟨by unfold NodupIds; decide,
    C3_delete_cascade "T"
      (fun i => if i = "g" then 2 else if i = "c" then 1 else 0) 3
      [{ id := "p" }, { id := "c", parent_id := some "p" },
       { id := "g", parent_id := some "c" }] ["c"]
      (by unfold NodupIds; decide)
      (by
        intro t ht q hq
        rcases List.mem_cons.1 ht with rfl | ht2
        · cases hq
        · rcases List.mem_cons.1 ht2 with rfl | ht3
          · cases hq
            decide
          · rcases List.mem_cons.1 ht3 with rfl | ht4
            · cases hq
              decide
            · cases ht4)
      (by unfold RankBound; decide)
      (by
        intro t ht q hq
        rcases List.mem_cons.1 ht with rfl | ht2
        · cases hq
        · rcases List.mem_cons.1 ht2 with rfl | ht3
          · cases hq
            decide
          · rcases List.mem_cons.1 ht3 with rfl | ht4
            · cases hq
              decide
            · cases ht4)⟩

/-! C4 machinery: `getAllSubtasksRecursive` collects exactly the strict
descendants (`Desc`) once the fuel covers the ranks, and the `Desc` relation
is invariant under row maps that keep `id` and `parent_id`. -/

theorem subtasks_succ (db : List DatabaseTask) (fuel : Nat) (a : String) :
    getAllSubtasksRecursive db (fuel + 1) a =
      childRows db a ++ (childRows db a).flatMap
        (fun s => getAllSubtasksRecursive db fuel s.id) := rfl

theorem subtree_sound {db : List DatabaseTask} :
    ∀ (fuel : Nat) (a : String), ∀ u ∈ getAllSubtasksRecursive db fuel a,
      u ∈ db ∧ Desc db a u.id := by
  intro fuel
  induction fuel with
  | zero => intro a u hu; cases hu
  | succ fuel ih =>
    intro a u hu
    rw [subtasks_succ] at hu
    rcases List.mem_append.1 hu with h1 | h2
    · obtain ⟨hmem, hpar⟩ := mem_childRows_iff.1 h1
      exact ⟨hmem, Desc.child u a hmem hpar⟩
    · obtain ⟨s, hs, hu2⟩ := List.mem_flatMap.1 h2
      obtain ⟨hmem, hdesc⟩ := ih s.id u hu2
      obtain ⟨hsmem, hspar⟩ := mem_childRows_iff.1 hs
      exact ⟨hmem, Desc.step s a u.id hsmem hspar hdesc⟩

theorem desc_rank_lt {db : List DatabaseTask} {d : String → Nat}
    (hr : RankOK d db) {a x : String} (h : Desc db a x) : d a < d x := by
  induction h with
  | child t a htm hp => exact hr t htm a hp
  | step t a x htm hp h2 ih => exact lt_trans (hr t htm a hp) ih

theorem subtree_complete {db : List DatabaseTask} (hn : NodupIds db)
    {d : String → Nat} (hr : RankOK d db) :
    ∀ {a x : String}, Desc db a x → ∀ u ∈ db, u.id = x →
      ∀ fuel, d x ≤ fuel + d a → u ∈ getAllSubtasksRecursive db fuel a := by
  intro a x hdesc
  induction hdesc with
  | child t a htm hp =>
    intro u hu huid fuel hfuel
    have hlt : d a < d t.id := hr t htm a hp
    have hut : u = t := row_unique hn hu htm (by rw [huid])
    subst hut
    cases fuel with
    | zero =>
      rw [← huid] at hfuel
      exact absurd hfuel (by omega)
    | succ m =>
      rw [subtasks_succ]
      exact List.mem_append_left _ (mem_childRows_iff.2 ⟨hu, hp⟩)
  | step t a x htm hp hdesc2 ih =>
    intro u hu huid fuel hfuel
    have hlt : d a < d t.id := hr t htm a hp
    have hxgt : d t.id < d x := desc_rank_lt hr hdesc2
    cases fuel with
    | zero => exact absurd hfuel (by omega)
    | succ m =>
      have hfu2 : d x ≤ m + d t.id := by omega
      have hrec := ih u hu huid m hfu2
      rw [subtasks_succ]
      apply List.mem_append_right
      exact List.mem_flatMap.2 ⟨t, mem_childRows_iff.2 ⟨htm, hp⟩, hrec⟩

theorem desc_row {db : List DatabaseTask} {a x : String} (h : Desc db a x) :
    ∃ u ∈ db, u.id = x := by
  induction h with
  | child t a htm hp => exact ⟨t, htm, rfl⟩
  | step t a x htm hp h2 ih => exact ih

theorem desc_map_of {db : List DatabaseTask} {f : DatabaseTask → DatabaseTask}
    (hid : ∀ t, (f t).id = t.id)
    (hpar : ∀ t, (f t).parent_id = t.parent_id) :
    ∀ {a x : String}, Desc db a x → Desc (db.map f) a x := by
  intro a x h
  induction h with
  | child t a htm hp =>
    have h1 : f t ∈ db.map f := List.mem_map_of_mem f htm
    have h2 : (f t).parent_id = some a := by
      rw [hpar]
      exact hp
    have h3 : Desc (db.map f) a (f t).id := Desc.child (f t) a h1 h2
    rw [hid] at h3
    exact h3
  | step t a x htm hp h2 ih =>
    refine Desc.step (f t) a x (List.mem_map_of_mem f htm) ?_ ?_
    · rw [hpar]
      exact hp
    · rw [hid]
      exact ih

theorem desc_of_map {db : List DatabaseTask} {f : DatabaseTask → DatabaseTask}
    (hid : ∀ t, (f t).id = t.id)
    (hpar : ∀ t, (f t).parent_id = t.parent_id) :
    ∀ {a x : String}, Desc (db.map f) a x → Desc db a x := by
  intro a x h
  induction h with
  | child t a htm hp =>
    obtain ⟨t0, ht0, rfl⟩ := List.mem_map.1 htm
    rw [hid t0]
    refine Desc.child t0 a ht0 ?_
    rw [← hpar t0]
    exact hp
  | step t a x htm hp h2 ih =>
    obtain ⟨t0, ht0, rfl⟩ := List.mem_map.1 htm
    refine Desc.step t0 a x ht0 ?_ ?_
    · rw [← hpar t0]
      exact hp
    · rw [← hid t0]
      exact ih

/-- C4: reassigning the due date of the listed tasks rewrites `due_date` to
the new value on exactly (i) the listed rows themselves (completed or not)
and (ii) the strict descendants of a listed id that are not completed; every
other row — a completed descendant in particular — is left entirely
unchanged, and no other field of any row changes.  Hypotheses: unique ids
and a rank function for acyclicity with the fuel above every rank. -/
theorem C4_date_cascade (d : String → Nat) (fuel : Nat)
    (db : List DatabaseTask) (taskIds : List String) (newDate : String)
    (hn : NodupIds db) (hr : RankOK d db) (hb : RankBound d fuel db) :
    List.Forall₂ (fun t u =>
      (taskIds.contains t.id = true → u = { t with due_date := newDate }) ∧
      (taskIds.contains t.id = false → t.completed = false →
        (∃ x ∈ taskIds, Desc db x t.id) →
        u = { t with due_date := newDate }) ∧
      (taskIds.contains t.id = false → (¬ ∃ x ∈ taskIds, Desc db x t.id) →
        u = t) ∧
      (taskIds.contains t.id = false → t.completed = true → u = t))
      db (updateTasksDates fuel db taskIds newDate) := by
  by_cases h0 : taskIds.isEmpty = true
  · have hres : updateTasksDates fuel db taskIds newDate = db := by
      unfold updateTasksDates
      rw [if_pos h0]
    rw [hres]
    have hids0 : taskIds = [] := List.isEmpty_iff.1 h0
    subst hids0
    apply List.forall₂_same.mpr
    intro t _
    refine ⟨fun hc => Bool.noConfusion hc, ?_, fun _ _ => rfl, fun _ _ => rfl⟩
    rintro _ _ ⟨x, hx, _⟩
    cases hx
  · have hid1 : ∀ t : DatabaseTask, (dateWrite taskIds newDate t).id = t.id := by
      intro t
      unfold dateWrite
      split <;> rfl
    have hpar1 : ∀ t : DatabaseTask,
        (dateWrite taskIds newDate t).parent_id = t.parent_id := by
      intro t
      unfold dateWrite
      split <;> rfl
    have hcomp1 : ∀ t : DatabaseTask,
        (dateWrite taskIds newDate t).completed = t.completed := by
      intro t
      unfold dateWrite
      split <;> rfl
    have hids1 : (db.map (dateWrite taskIds newDate)).map (·.id)
        = db.map (·.id) := by
      rw [List.map_map]
      exact List.map_congr_left (fun t _ => hid1 t)
    have hn1 : NodupIds (db.map (dateWrite taskIds newDate)) := by
      unfold NodupIds
      rw [hids1]
      exact hn
    have hr1 : RankOK d (db.map (dateWrite taskIds newDate)) := by
      intro u hu p hp
      obtain ⟨t0, ht0, rfl⟩ := List.mem_map.1 hu
      rw [hid1]
      refine hr t0 ht0 p ?_
      rw [← hpar1 t0]
      exact hp
    have hb1 : RankBound d fuel (db.map (dateWrite taskIds newDate)) := by
      intro u hu
      obtain ⟨t0, ht0, rfl⟩ := List.mem_map.1 hu
      rw [hid1]
      exact hb t0 ht0
    have hA : ∀ y : String,
        ((taskIds.flatMap (fun i =>
          (getAllSubtasksRecursive (db.map (dateWrite taskIds newDate)) fuel i).map
            (·.id))).contains y = true) ↔ ∃ x ∈ taskIds, Desc db x y := by
      intro y
      constructor
      · intro hc
        have hmem : y ∈ taskIds.flatMap (fun i =>
            (getAllSubtasksRecursive (db.map (dateWrite taskIds newDate)) fuel i).map
              (·.id)) := by simpa using hc
        obtain ⟨i, hi, hy⟩ := List.mem_flatMap.1 hmem
        obtain ⟨u, hu, huid⟩ := List.mem_map.1 hy
        obtain ⟨humem, hudesc⟩ := subtree_sound fuel i u hu
        rw [huid] at hudesc
        exact ⟨i, hi, desc_of_map hid1 hpar1 hudesc⟩
      · rintro ⟨x, hx, hdesc⟩
        obtain ⟨u, hu, huid⟩ := desc_row hdesc
        have hdesc1 : Desc (db.map (dateWrite taskIds newDate)) x y :=
          desc_map_of hid1 hpar1 hdesc
        have hu1 : dateWrite taskIds newDate u ∈ db.map (dateWrite taskIds newDate) :=
          List.mem_map_of_mem _ hu
        have huid1 : (dateWrite taskIds newDate u).id = y := by
          rw [hid1]
          exact huid
        have hfuel : d y ≤ fuel + d x := by
          have h1 := hb1 _ hu1
          rw [huid1] at h1
          omega
        have hmem := subtree_complete hn1 hr1 hdesc1 _ hu1 huid1 fuel hfuel
        have : y ∈ taskIds.flatMap (fun i =>
            (getAllSubtasksRecursive (db.map (dateWrite taskIds newDate)) fuel i).map
              (·.id)) := by
          refine List.mem_flatMap.2 ⟨x, hx, ?_⟩
          rw [← huid1]
          exact List.mem_map_of_mem _ hmem
        simpa using this
    have hres : updateTasksDates fuel db taskIds newDate
        = (db.map (dateWrite taskIds newDate)).map
            (dateCascadeWrite (taskIds.flatMap (fun i =>
              (getAllSubtasksRecursive (db.map (dateWrite taskIds newDate)) fuel i).map
                (·.id))) newDate) := by
      unfold updateTasksDates
      rw [if_neg h0]
      dsimp only
      by_cases h1 : (taskIds.flatMap (fun i =>
          (getAllSubtasksRecursive (db.map (dateWrite taskIds newDate)) fuel i).map
            (·.id))).isEmpty = true
      · rw [if_pos h1, List.isEmpty_iff.1 h1]
        have h2 : ∀ t ∈ db.map (dateWrite taskIds newDate),
            dateCascadeWrite [] newDate t = t := fun t _ => rfl
        calc db.map (dateWrite taskIds newDate)
            = (db.map (dateWrite taskIds newDate)).map id :=
              (List.map_id _).symm
          _ = (db.map (dateWrite taskIds newDate)).map
                (dateCascadeWrite [] newDate) :=
              (List.map_congr_left h2).symm
      · rw [if_neg h1]
    rw [hres, List.map_map, List.forall₂_map_right_iff]
    apply List.forall₂_same.mpr
    intro t ht
    simp only [Function.comp_apply]
    by_cases hc : taskIds.contains t.id = true
    · have hft : dateWrite taskIds newDate t = { t with due_date := newDate } := by
        unfold dateWrite
        rw [if_pos hc]
      rw [hft]
      refine ⟨fun _ => ?_, fun hcf => absurd hc (by rw [hcf]; exact Bool.noConfusion),
        fun hcf => absurd hc (by rw [hcf]; exact Bool.noConfusion),
        fun hcf => absurd hc (by rw [hcf]; exact Bool.noConfusion)⟩
      unfold dateCascadeWrite
      split <;> rfl
    · have hcf : taskIds.contains t.id = false := by
        simpa using hc
      have hft : dateWrite taskIds newDate t = t := by
        unfold dateWrite
        rw [if_neg (by rw [hcf]; exact Bool.noConfusion)]
      rw [hft]
      refine ⟨fun h => absurd h hc, ?_, ?_, ?_⟩
      · intro _ hcomp hdesc
        unfold dateCascadeWrite
        rw [if_pos ?_]
        rw [(hA t.id).2 hdesc, hcomp]
        rfl
      · intro _ hnodesc
        unfold dateCascadeWrite
        rw [if_neg ?_]
        intro habs
        rcases Bool.and_eq_true_iff.1 habs with ⟨h1, _⟩
        exact hnodesc ((hA t.id).1 h1)
      · intro _ hcomp
        unfold dateCascadeWrite
        rw [if_neg ?_]
        intro habs
        rcases Bool.and_eq_true_iff.1 habs with ⟨_, h2⟩
        rw [hcomp] at h2
        exact Bool.noConfusion h2

theorem C4_date_cascade_witness :
    NodupIds [{ id := "X" }, { id := "Y", parent_id := some "X" },
      { id := "Z", parent_id := some "X", completed := true,
        due_date := "2024-01-01" }] ∧
    List.Forall₂ (fun t u =>
      ((["X"] : List String).contains t.id = true →
        u = { t with due_date := "2024-02-02" }) ∧
      ((["X"] : List String).contains t.id = false → t.completed = false →
        (∃ x ∈ (["X"] : List String),
          Desc [{ id := "X" }, { id := "Y", parent_id := some "X" },
            { id := "Z", parent_id := some "X", completed := true,
              due_date := "2024-01-01" }] x t.id) →
        u = { t with due_date := "2024-02-02" }) ∧
      ((["X"] : List String).contains t.id = false →
        (¬ ∃ x ∈ (["X"] : List String),
          Desc [{ id := "X" }, { id := "Y", parent_id := some "X" },
            { id := "Z", parent_id := some "X", completed := true,
              due_date := "2024-01-01" }] x t.id) →
        u = t) ∧
      ((["X"] : List String).contains t.id = false → t.completed = true →
        u = t))
      [{ id := "X" }, { id := "Y", parent_id := some "X" },
       { id := "Z", parent_id := some "X", completed := true,
         due_date := "2024-01-01" }]
      (updateTasksDates 2
        [{ id := "X" }, { id := "Y", parent_id := some "X" },
         { id := "Z", parent_id := some "X", completed := true,
           due_date := "2024-01-01" }] ["X"] "2024-02-02") :=
  ⟨by unfold NodupIds; decide,
    C4_date_cascade (fun i => if i = "X" then 0 else 1) 2
      [{ id := "X" }, { id := "Y", parent_id := some "X" },
       { id := "Z", parent_id := some "X", completed := true,
         due_date := "2024-01-01" }] ["X"] "2024-02-02"
      (by unfold NodupIds; decide)
      (by
        intro t ht q hq
        rcases List.mem_cons.1 ht with rfl | ht2
        · cases hq
        · rcases List.mem_cons.1 ht2 with rfl | ht3
          · cases hq
            decide
          · rcases List.mem_cons.1 ht3 with rfl | ht4
            · cases hq
              decide
            · cases ht4)
      (by unfold RankBound; decide)⟩

/-! C9: behaviour on missing ids.  The single-id operations are silent
no-ops, and a bulk delete simply proceeds with the rows it finds; but
`moveTasksToParent` builds its CASE clauses from the rows it found while
binding the requested ids, so a missing (or duplicated) requested id makes
the placeholder and parameter counts disagree and the statement fails
instead of moving the remaining tasks. -/

theorem C9_missing_id (db : List DatabaseTask) (i newName now : String)
    (fuel : Nat) (ids : List String) (np : Option String)
    (hmiss : ∀ t ∈ db, t.id ≠ i)
    (hpresent : ¬ (db.filter (fun t => ids.contains t.id)).isEmpty = true)
    (hcount : (db.filter (fun t => ids.contains t.id)).length ≠ ids.length) :
    updateTask db i newName = db ∧
    toggleTask now fuel db i = db ∧
    deleteTasks now fuel db [i] = db ∧
    moveTasksToParent now fuel db ids np
      = Except.error "wrong number of parameters" := by
  have hfind : findTask db i = none := findTask_eq_none_iff.2 hmiss
  refine ⟨?_, ?_, ?_, ?_⟩
  · unfold updateTask
    have h2 : ∀ t ∈ db,
        (if t.id == i then { t with name := newName } else t) = t := by
      intro t ht
      rw [if_neg (by simpa using hmiss t ht)]
    calc db.map (fun t => if t.id == i then { t with name := newName } else t)
        = db.map id := List.map_congr_left h2
      _ = db := List.map_id db
  · unfold toggleTask
    have hmapid : db.map (toggleWrite now i) = db := by
      have h2 : ∀ t ∈ db, toggleWrite now i t = t := by
        intro t ht
        unfold toggleWrite
        rw [if_neg (by simpa using hmiss t ht)]
      calc db.map (toggleWrite now i) = db.map id := List.map_congr_left h2
        _ = db := List.map_id db
    rw [hmapid]
    cases fuel with
    | zero => rfl
    | succ m => rw [handle_succ, hfind]
  · unfold deleteTasks
    have hfilter : db.filter (fun t => ([i] : List String).contains t.id) = [] := by
      rw [List.filter_eq_nil]
      intro t ht
      simpa using hmiss t ht
    rw [if_neg (fun h => Bool.noConfusion h), hfilter]
    rfl
  · have hne : ¬ ids.isEmpty = true := by
      intro h
      apply hpresent
      rw [List.isEmpty_iff.1 h]
      simp
    unfold moveTasksToParent
    rw [if_neg hne, if_neg hpresent, if_pos hcount]

theorem C9_missing_id_witness :
    ((∀ t ∈ ([{ id := "g" }] : List DatabaseTask), t.id ≠ "x") ∧
      ¬ (([{ id := "g" }] : List DatabaseTask).filter
          (fun t => (["x", "g"] : List String).contains t.id)).isEmpty = true ∧
      (([{ id := "g" }] : List DatabaseTask).filter
          (fun t => (["x", "g"] : List String).contains t.id)).length
        ≠ (["x", "g"] : List String).length) ∧
    (updateTask [{ id := "g" }] "x" "n" = [{ id := "g" }] ∧
     toggleTask "T" 3 [{ id := "g" }] "x" = [{ id := "g" }] ∧
     deleteTasks "T" 3 [{ id := "g" }] ["x"] = [{ id := "g" }] ∧
     moveTasksToParent "T" 3 [{ id := "g" }] ["x", "g"] none
       = Except.error "wrong number of parameters") :=
  ⟨⟨by decide, by decide, by decide⟩,
    C9_missing_id [{ id := "g" }] "x" "n" "T" 3 ["x", "g"] none
      (by decide) (by decide) (by decide)⟩

/-! C5 machinery: what the shared ORDER BY key actually guarantees. -/

theorem queryLe_over {s : String} {a b : DatabaseTask} (h : queryLe s a b)
    (hb : overdueFlag s b = true) : overdueFlag s a = true := by
  by_contra hfa0
  have hfa : overdueFlag s a = false := by simpa using hfa0
  unfold queryLe queryKey at h
  simp only [hfa, hb, Bool.false_eq_true, if_true, if_false,
    eq_self_iff_true] at h
  rw [Prod.Lex.le_iff] at h
  rcases h with h | ⟨h1, _⟩
  · exact absurd h (by omega)
  · exact absurd h1 (by omega)

theorem queryLe_tie {s : String} {a b : DatabaseTask} (h : queryLe s a b)
    (ha : overdueFlag s a = true) (hb : overdueFlag s b = true)
    (hpar : a.parent_id = b.parent_id) (hord : a.task_order = b.task_order) :
    strLe b.due_date a.due_date := by
  unfold queryLe queryKey at h
  simp only [ha, hb, eq_self_iff_true, if_true] at h
  rw [hpar, hord] at h
  rw [Prod.Lex.le_iff] at h
  rcases h with h | ⟨_, h2⟩
  · exact absurd h (by omega)
  · rw [Prod.Lex.le_iff] at h2
    rcases h2 with h2 | ⟨_, h3⟩
    · exact absurd h2 (lt_irrefl _)
    · rw [Prod.Lex.le_iff] at h3
      rcases h3 with h3 | ⟨_, h4⟩
      · exact absurd h3 (lt_irrefl _)
      · rw [Prod.Lex.le_iff] at h4
        rcases h4 with h4 | ⟨h41, _⟩
        · rw [Prod.Lex.lt_iff] at h4
          rcases h4 with h4 | ⟨_, h42⟩
          · exact absurd h4 (by omega)
          · have h43 : b.due_date.data < a.due_date.data := h42
            exact le_of_lt h43
        · have h42 : (OrderDual.toDual a.due_date.data)
              = OrderDual.toDual b.due_date.data :=
            congrArg (fun x => (ofLex x).2) h41
          have h43 : a.due_date.data = b.due_date.data :=
            OrderDual.toDual_inj.1 h42
          unfold strLe
          rw [h43]

/-- C5 (amended): the Today bucket does include every incomplete task due
strictly before the start of today, and the rows come back ordered by the
ORDER BY key: an overdue row never follows a non-overdue row, and among
overdue rows that agree on `parent_id` and `task_order` the later due date
comes first (descending).  For the Tomorrow bucket the overdue cutoff is
NOT the start of the bucket but the start of TODAY — an incomplete task due
before the start of tomorrow yet not before the start of today (that is,
due today) is excluded, refuting the claim as stated
(`C5_tomorrow_cutoff_counterexample`); the inclusion that does hold uses
the `startOfToday` cutoff, and the claimed global most-overdue-last order
only holds within equal `parent_id` and `task_order`. -/
theorem C5_date_buckets (fuel : Nat) (db : List DatabaseTask)
    (startOfDay endOfDay startOfToday : String) :
    (∀ t ∈ db, t.completed = false → strLt t.due_date startOfDay →
      t ∈ getTodaysTasks fuel db startOfDay endOfDay) ∧
    (∀ t ∈ db, t.completed = false → strLt t.due_date startOfToday →
      t ∈ getTomorrowsTasks fuel db startOfDay endOfDay startOfToday) ∧
    List.Pairwise (fun a b =>
      (overdueFlag startOfDay b = true → overdueFlag startOfDay a = true) ∧
      (overdueFlag startOfDay a = true → overdueFlag startOfDay b = true →
        a.parent_id = b.parent_id → a.task_order = b.task_order →
        strLe b.due_date a.due_date))
      (getTodaysTasks fuel db startOfDay endOfDay) ∧
    List.Pairwise (fun a b =>
      (overdueFlag startOfToday b = true → overdueFlag startOfToday a = true) ∧
      (overdueFlag startOfToday a = true → overdueFlag startOfToday b = true →
        a.parent_id = b.parent_id → a.task_order = b.task_order →
        strLe b.due_date a.due_date))
      (getTomorrowsTasks fuel db startOfDay endOfDay startOfToday) := by
  refine ⟨?_, ?_, ?_, ?_⟩
  · intro t ht hc hd
    unfold getTodaysTasks
    apply (List.perm_insertionSort (queryLe startOfDay) _).mem_iff.2
    apply List.mem_filter.2
    refine ⟨ht, ?_⟩
    have h1 : decide (strLt t.due_date startOfDay) = true := decide_eq_true hd
    have h2 : matchesToday startOfDay endOfDay t = true := by
      unfold matchesToday
      rw [h1, hc]
      simp
    unfold inHierarchy
    rw [h2]
    simp
  · intro t ht hc hd
    unfold getTomorrowsTasks
    apply (List.perm_insertionSort (queryLe startOfToday) _).mem_iff.2
    apply List.mem_filter.2
    refine ⟨ht, ?_⟩
    have h1 : decide (strLt t.due_date startOfToday) = true := decide_eq_true hd
    have h2 : matchesTomorrow startOfDay endOfDay startOfToday t = true := by
      unfold matchesTomorrow
      rw [h1, hc]
      simp
    unfold inHierarchy
    rw [h2]
    simp
  · have hs := List.sorted_insertionSort (queryLe startOfDay)
      (db.filter (inHierarchy db fuel (matchesToday startOfDay endOfDay)))
    exact hs.imp (fun h =>
      ⟨fun hb => queryLe_over h hb,
        fun ha hb hp ho => queryLe_tie h ha hb hp ho⟩)
  · have hs := List.sorted_insertionSort (queryLe startOfToday)
      (db.filter (inHierarchy db fuel
        (matchesTomorrow startOfDay endOfDay startOfToday)))
    exact hs.imp (fun h =>
      ⟨fun hb => queryLe_over h hb,
        fun ha hb hp ho => queryLe_tie h ha hb hp ho⟩)

theorem C5_date_buckets_witness :
    ({ id := "t", due_date := "2024-01-09" } : DatabaseTask)
      ∈ getTodaysTasks 1 [{ id := "t", due_date := "2024-01-09" }]
          "2024-01-10T00:00:00" "2024-01-10T23:59:59" :=
  (C5_date_buckets 1 [{ id := "t", due_date := "2024-01-09" }]
      "2024-01-10T00:00:00" "2024-01-10T23:59:59" "2024-01-10T00:00:00").1
    { id := "t", due_date := "2024-01-09" } (by decide) rfl
    (by unfold strLt; decide)

/-- C5 counterexample: an incomplete task due today (so strictly before the
start of tomorrow) is NOT returned by the Tomorrow bucket, because the
overdue clause of `getTomorrowsTasks` compares against the start of today
rather than the start of the bucket. -/
theorem C5_tomorrow_cutoff_counterexample :
    strLt "2024-01-10T08:00:00" "2024-01-11T00:00:00" ∧
    ({ id := "t", due_date := "2024-01-10T08:00:00" } : DatabaseTask).completed
        = false ∧
    ¬ ({ id := "t", due_date := "2024-01-10T08:00:00" } : DatabaseTask)
        ∈ getTomorrowsTasks 1
            [{ id := "t", due_date := "2024-01-10T08:00:00" }]
            "2024-01-11T00:00:00" "2024-01-11T23:59:59"
            "2024-01-10T00:00:00" := by
  refine ⟨?_, rfl, ?_⟩
  · unfold strLt
    decide
  · decide

end TaskService
